import Mathlib

/-!
Verification of the brainfuck evaluator in `src/lib.rs` (crate `bf-fast`).

The pipeline is `evaluate = execute ∘ compile ∘ optimize ∘ minify`.  Every
definition below is a direct shallow embedding of the corresponding Rust
item; strings are `List Char`, the byte tape is a function `ℕ → ℕ` whose
cells are kept below 256, `u8` arithmetic is `% 256`, and every fatal
outcome of the Rust code (`panic`, index out of range, arithmetic
underflow of a `usize`) is `none`.  The interpreter loop is given explicit
fuel because source programs need not terminate.
-/

namespace BF

/-- Instruction set of the compiler (`enum Instructions` in the source).
`pointerRight`/`pointerLeft` carry an unsigned move magnitude, `add`/`sub`
an unsigned 8-bit magnitude, `loopStart`/`loopEnd` the jump target filled
in by the bracket-resolution pass. -/
inductive Instr where
  | pointerRight : ℕ → Instr
  | pointerLeft : ℕ → Instr
  | add : ℕ → Instr
  | sub : ℕ → Instr
  | putChar : Instr
  | getChar : Instr
  | loopStart : ℕ → Instr
  | loopEnd : ℕ → Instr
  | clear : Instr
  | scanLeft : Instr
  | scanRight : Instr
  deriving DecidableEq, Repr

/-- The eight recognized instruction characters. -/
def isInstrChar (c : Char) : Bool :=
  c = '>' || c = '<' || c = '+' || c = '-' || c = ',' || c = '.' || c = '[' || c = ']'

/-- `minify`: keep exactly the instruction characters, in order. -/
def minify (l : List Char) : List Char :=
  l.filter isInstrChar

/-- Leftmost non-overlapping replacement of the three-character pattern
`[mid]` by the single character `rep`; this is `str::replace` for the
patterns used by `optimize` (all of them ASCII, so byte level and
character level coincide). -/
def replace3 (mid rep : Char) : List Char → List Char
  | a :: b :: c :: rest =>
    if a = '[' ∧ b = mid ∧ c = ']' then rep :: replace3 mid rep rest
    else a :: replace3 mid rep (b :: c :: rest)
  | l => l

/-- `optimize`: the four textual replacements, applied in source order. -/
def optimize (l : List Char) : List Char :=
  replace3 '>' 'r' (replace3 '<' 'l' (replace3 '+' 'c' (replace3 '-' 'c' l)))

def isMove (c : Char) : Bool := c = '>' || c = '<'

def isArith (c : Char) : Bool := c = '+' || c = '-'

/-- Contribution of one character to the signed sum of a `>`/`<` run. -/
def moveDelta (c : Char) : ℤ :=
  if c = '>' then 1 else if c = '<' then -1 else 0

/-- Contribution of one character to the signed sum of a `+`/`-` run. -/
def arithDelta (c : Char) : ℤ :=
  if c = '+' then 1 else if c = '-' then -1 else 0

/-- How pass 1 of `compile` ends: `done` = the whole text was consumed;
`halted` = a run with net sum zero made the `match` arm `break` out of the
main `while` loop, discarding the rest of the text; `failed` = an
unrecognized character was hit (`panic` in the source). -/
inductive EmitEnd where
  | done : EmitEnd
  | halted : EmitEnd
  | failed : EmitEnd
  deriving DecidableEq, Repr

def consFst (i : Instr) : List Instr × EmitEnd → List Instr × EmitEnd
  | (is, e) => (i :: is, e)

/-- Pass 1 of `compile` (instruction emission), with an explicit structural
fuel; `emit` runs it with fuel `l.length`, which always suffices since
every step consumes at least one character.  A maximal run of `>`/`<` is
collapsed into its signed sum `v`: `v > 0` becomes `pointerLeft v` and
`v < 0` becomes `pointerRight (-v)` exactly as in the source (where the
two names are populated swapped), while `v = 0` stops compilation.  Runs
of `+`/`-` behave the same with the magnitude truncated to 8 bits
(`as u8`); the run sums are kept exact here, as in the source Rust `i32`
for any text shorter than 2^31 characters. -/
def emitF : ℕ → List Char → List Instr × EmitEnd
  | _, [] => ([], .done)
  | 0, _ :: _ => ([], .failed)
  | f + 1, c :: rest =>
    if isMove c then
      let v : ℤ := moveDelta c + ((rest.takeWhile isMove).map moveDelta).sum
      if 0 < v then consFst (.pointerLeft v.toNat) (emitF f (rest.dropWhile isMove))
      else if v < 0 then consFst (.pointerRight (-v).toNat) (emitF f (rest.dropWhile isMove))
      else ([], .halted)
    else if isArith c then
      let v : ℤ := arithDelta c + ((rest.takeWhile isArith).map arithDelta).sum
      if 0 < v then consFst (.add (v.toNat % 256)) (emitF f (rest.dropWhile isArith))
      else if v < 0 then consFst (.sub ((-v).toNat % 256)) (emitF f (rest.dropWhile isArith))
      else ([], .halted)
    else if c = '.' then consFst .putChar (emitF f rest)
    else if c = ',' then consFst .getChar (emitF f rest)
    else if c = '[' then consFst (.loopStart 0) (emitF f rest)
    else if c = ']' then consFst (.loopEnd 0) (emitF f rest)
    else if c = 'c' then consFst .clear (emitF f rest)
    else if c = 'l' then consFst .scanLeft (emitF f rest)
    else if c = 'r' then consFst .scanRight (emitF f rest)
    else ([], .failed)

/-- Pass 1 of `compile`. -/
def emit (l : List Char) : List Instr × EmitEnd := emitF l.length l

/-- Nesting contribution of an instruction, as used by the scanning loops
of the bracket-resolution pass (they look only at whether an entry is a
`loopStart` or a `loopEnd`, never at its payload). -/
def instrDelta : Instr → ℤ
  | .loopStart _ => 1
  | .loopEnd _ => -1
  | _ => 0

/-- Core of both scanning loops of the resolution pass: given the nesting
deltas still to be scanned and the current value of `unmatched`, return
the relative index at which the counter first returns to zero.  Running
off the list is `none` (the source indexes past the array bounds there
and aborts). -/
def seekF : List ℤ → ℤ → Option ℕ
  | [], _ => none
  | d :: rest, c => if c + d = 0 then some 0 else (seekF rest (c + d)).map (· + 1)

/-- Forward scan of the resolution pass for a `loopStart` at `i`: positions
`i+1, i+2, ...` are scanned with `unmatched` starting at 1. -/
def fwdTarget (p : List Instr) (i : ℕ) : Option ℕ :=
  (seekF ((p.map instrDelta).drop (i + 1)) 1).map (fun n => i + 1 + n)

/-- Backward scan of the resolution pass for a `loopEnd` at `i`: positions
`i-1, i-2, ...` are scanned with `unmatched` starting at 1, a `loopStart`
now counting -1 and a `loopEnd` +1. -/
def bwdTarget (p : List Instr) (i : ℕ) : Option ℕ :=
  (seekF (((p.map instrDelta).take i).reverse.map (fun d => -d)) 1).map (fun n => i - 1 - n)

/-- One iteration of the resolution `for` loop: a bracket at `i` gets the
target found by its scan written into it, anything else is untouched. -/
def resolveStep (p : List Instr) (i : ℕ) : Option (List Instr) :=
  match p[i]? with
  | some (.loopStart _) => (fwdTarget p i).map (fun j => p.set i (.loopStart j))
  | some (.loopEnd _) => (bwdTarget p i).map (fun j => p.set i (.loopEnd j))
  | _ => some p

def resolveGo : List ℕ → List Instr → Option (List Instr)
  | [], p => some p
  | i :: rest, p =>
    match resolveStep p i with
    | none => none
    | some p' => resolveGo rest p'

/-- Pass 2 of `compile` (bracket resolution): every position is visited in
order and brackets are resolved in place. -/
def resolve (p : List Instr) : Option (List Instr) :=
  resolveGo (List.range p.length) p

/-- `compile`: emission followed by bracket resolution.  A `panic` on an
unrecognized character aborts; the early `break` on a zero-sum run does
not (the truncated program is resolved and run). -/
def compile (l : List Char) : Option (List Instr) :=
  match emit l with
  | (_, .failed) => none
  | (p, _) => resolve p

/-- Size of the byte tape (`[u8; 30_000]`). -/
def MEMSZ : ℕ := 30000

/-- Machine state of `execute`: program counter, tape cursor, tape, output
accumulator, and the bytes written to stdout when live output is on. -/
structure MState where
  pc : ℕ
  ptr : ℕ
  mem : ℕ → ℕ
  out : List ℕ
  sink : List ℕ

/-- Point update of the tape. -/
def upd (m : ℕ → ℕ) (i v : ℕ) : ℕ → ℕ := fun j => if j = i then v else m j

/-- `ScanRight`: move right while the cell under the cursor is nonzero;
reading past the end of the tape aborts. -/
def scanR (m : ℕ → ℕ) (p : ℕ) : Option ℕ :=
  if h : MEMSZ ≤ p then none
  else if m p = 0 then some p
  else scanR m (p + 1)
termination_by MEMSZ - p
decreasing_by omega

/-- `ScanLeft`: move left while the cell under the cursor is nonzero;
moving below cell 0 aborts. -/
def scanL (m : ℕ → ℕ) (p : ℕ) : Option ℕ :=
  if MEMSZ ≤ p then none
  else if m p = 0 then some p
  else if p = 0 then none
  else scanL m (p - 1)
termination_by p
decreasing_by omega

/-- One iteration of the interpretation loop of `execute`: run the
instruction at the program counter, then advance the counter by one.
`none` is any fatal outcome: counter outside the program (the loop only
stops at exact equality with the length), cursor outside the tape at a
cell access, `usize` underflow of the cursor, or the unimplemented
`GetChar` (`panic` in the source). -/
def step (prog : List Instr) (live : Bool) (s : MState) : Option MState :=
  match prog.get? s.pc with
  | none => none
  | some inst =>
    match inst with
    | .pointerLeft n => some { s with pc := s.pc + 1, ptr := s.ptr + n }
    | .pointerRight n =>
      if n ≤ s.ptr then some { s with pc := s.pc + 1, ptr := s.ptr - n } else none
    | .add n =>
      if s.ptr < MEMSZ then
        some { s with pc := s.pc + 1, mem := upd s.mem s.ptr ((s.mem s.ptr + n) % 256) }
      else none
    | .sub n =>
      if s.ptr < MEMSZ then
        some { s with pc := s.pc + 1,
                      mem := upd s.mem s.ptr ((s.mem s.ptr + (256 - n % 256)) % 256) }
      else none
    | .putChar =>
      if s.ptr < MEMSZ then
        some { s with pc := s.pc + 1, out := s.out ++ [s.mem s.ptr],
                      sink := if live then s.sink ++ [s.mem s.ptr] else s.sink }
      else none
    | .getChar => none
    | .loopStart t =>
      if s.ptr < MEMSZ then
        some { s with pc := (if s.mem s.ptr = 0 then t else s.pc) + 1 }
      else none
    | .loopEnd t =>
      if s.ptr < MEMSZ then
        some { s with pc := (if s.mem s.ptr = 0 then s.pc else t) + 1 }
      else none
    | .clear =>
      if s.ptr < MEMSZ then
        some { s with pc := s.pc + 1, mem := upd s.mem s.ptr 0 }
      else none
    | .scanRight => (scanR s.mem s.ptr).map fun q => { s with pc := s.pc + 1, ptr := q }
    | .scanLeft => (scanL s.mem s.ptr).map fun q => { s with pc := s.pc + 1, ptr := q }

/-- The interpretation loop: it terminates exactly when the program counter
equals the program length.  The fuel only bounds the number of loop
iterations; `none` through lack of fuel stands for a run that has not
terminated yet. -/
def runM (prog : List Instr) (live : Bool) : ℕ → MState → Option MState
  | 0, _ => none
  | f + 1, s => if s.pc = prog.length then some s else (step prog live s).bind (runM prog live f)

/-- Fresh state: zeroed tape, both registers 0, nothing output. -/
def initState : MState := ⟨0, 0, fun _ => 0, [], []⟩

/-- `execute`: run the program on a fresh state and return the accumulated
output bytes. -/
def execute (prog : List Instr) (live : Bool) (fuel : ℕ) : Option (List ℕ) :=
  (runM prog live fuel initState).map MState.out

/-- The public entry point `evaluate`. -/
def evaluate (src : List Char) (live : Bool) (fuel : ℕ) : Option (List ℕ) :=
  (compile (optimize (minify src))).bind fun p => execute p live fuel

/-- Program counter after one successful `step`, as dictated by the source:
a taken jump first sets the counter to the stored target of the bracket,
and the unconditional `+ 1` of the loop is applied afterwards. -/
def nextPc (prog : List Instr) (s : MState) : ℕ :=
  match prog.get? s.pc with
  | some (.loopStart t) => (if s.mem s.ptr = 0 then t else s.pc) + 1
  | some (.loopEnd t) => (if s.mem s.ptr = 0 then s.pc else t) + 1
  | _ => s.pc + 1

/-- The canonical 106-character Hello World program from the crate's test. -/
def helloSrc : List Char :=
  ("++++++++++[>+++++++>++++++++++>+++>+<<<<-]>++.>+.+++++++..+++.>++.<<++" ++
   "+++++++++++++.>.+++.------.--------.>+.>.").toList

/-- UTF-8 bytes of an ASCII string, written through code points. -/
def strBytes (s : String) : List ℕ := s.toList.map Char.toNat

/-- Everything `execute` computes with, minus the live-output sink. -/
def core (s : MState) : ℕ × ℕ × (ℕ → ℕ) × List ℕ := (s.pc, s.ptr, s.mem, s.out)

/-- Boolean test: the first list is a prefix of the second. -/
def prefOf : List Char → List Char → Bool
  | [], _ => true
  | _ :: _, [] => false
  | a :: as, b :: bs => a = b && prefOf as bs

/-- Boolean test: `pat` occurs as a contiguous substring. -/
def occurs (pat : List Char) : List Char → Bool
  | [] => prefOf pat []
  | c :: rest => prefOf pat (c :: rest) || occurs pat rest

/-- Nesting contribution of a source character. -/
def charDelta (c : Char) : ℤ :=
  if c = '[' then 1 else if c = ']' then -1 else 0

/-- Dyck property of a list of nesting deltas: every prefix sum is
nonnegative and the total sum is zero; equivalently, every bracket is
matched. -/
def Balanced (ds : List ℤ) : Prop :=
  (∀ m, 0 ≤ (ds.take m).sum) ∧ ds.sum = 0

/-- Bounded, decidable form of `Balanced` (prefixes stabilize beyond the
length). -/
def BalancedB (ds : List ℤ) : Prop :=
  (∀ m < ds.length + 1, 0 ≤ (ds.take m).sum) ∧ ds.sum = 0

/-- The bracket word of a delta list: the nonzero entries in order. -/
def bw (l : List ℤ) : List ℤ := l.filter (fun d => decide (d ≠ 0))

instance : DecidablePred BalancedB := fun ds => by unfold BalancedB; infer_instance

/-- The scan of the resolution pass for position `i` does not run off the
program. -/
def scanOk (p : List Instr) (i : ℕ) : Prop :=
  match p[i]? with
  | some (.loopStart _) => fwdTarget p i ≠ none
  | some (.loopEnd _) => bwdTarget p i ≠ none
  | _ => True

/-- The entry the resolution pass leaves at position `i`. -/
def resolvedAt (p : List Instr) (i : ℕ) : Option Instr :=
  match p[i]? with
  | some (.loopStart _) => (fwdTarget p i).map .loopStart
  | some (.loopEnd _) => (bwdTarget p i).map .loopEnd
  | o => o

/-! ### The components of the machine state that do not depend on the
live-output flag. -/

lemma core_pc {s t : MState} (h : core s = core t) : s.pc = t.pc :=
  congrArg (fun x => x.1) h

lemma core_out {s t : MState} (h : core s = core t) : s.out = t.out :=
  congrArg (fun x => x.2.2.2) h

lemma step_core (prog : List Instr) (b₁ b₂ : Bool) (s t : MState) (h : core s = core t) :
    (step prog b₁ s).map core = (step prog b₂ t).map core := by
  obtain ⟨pc, ptr, mem, out, sink⟩ := s
  obtain ⟨pc', ptr', mem', out', sink'⟩ := t
  simp only [core, Prod.mk.injEq] at h
  obtain ⟨h1, h2, h3, h4⟩ := h
  subst h1; subst h2; subst h3; subst h4
  simp only [step]
  cases hg : prog.get? pc with
  | none => rfl
  | some inst =>
    cases inst with
    | pointerLeft n => rfl
    | pointerRight n => simp [core, apply_ite]
    | add n => simp [core, apply_ite]
    | sub n => simp [core, apply_ite]
    | putChar => simp [core, apply_ite]
    | getChar => rfl
    | loopStart t => simp [core, apply_ite]
    | loopEnd t => simp [core, apply_ite]
    | clear => simp [core, apply_ite]
    | scanRight =>
      have hr : ∀ o : Option ℕ,
          (o.map fun q =>
            ({ pc := pc + 1, ptr := q, mem := mem, out := out, sink := sink } : MState)).map core =
          (o.map fun q =>
            ({ pc := pc + 1, ptr := q, mem := mem, out := out, sink := sink' } : MState)).map core := by
        intro o; cases o <;> simp [core]
      exact hr (scanR mem ptr)
    | scanLeft =>
      have hr : ∀ o : Option ℕ,
          (o.map fun q =>
            ({ pc := pc + 1, ptr := q, mem := mem, out := out, sink := sink } : MState)).map core =
          (o.map fun q =>
            ({ pc := pc + 1, ptr := q, mem := mem, out := out, sink := sink' } : MState)).map core := by
        intro o; cases o <;> simp [core]
      exact hr (scanL mem ptr)

lemma runM_core (prog : List Instr) (b₁ b₂ : Bool) :
    ∀ (f : ℕ) (s t : MState), core s = core t →
      (runM prog b₁ f s).map core = (runM prog b₂ f t).map core := by
  intro f
  induction f with
  | zero => intro s t _; rfl
  | succ f ih =>
    intro s t h
    have hpc : s.pc = t.pc := core_pc h
    simp only [runM, ← hpc]
    by_cases hend : s.pc = prog.length
    · simp [hend, h]
    · simp only [if_neg hend]
      have hs := step_core prog b₁ b₂ s t h
      cases h1 : step prog b₁ s with
      | none =>
        cases h2 : step prog b₂ t with
        | none => rfl
        | some t' => rw [h1, h2] at hs; simp at hs
      | some s' =>
        cases h2 : step prog b₂ t with
        | none => rw [h1, h2] at hs; simp at hs
        | some t' =>
          rw [h1, h2] at hs
          simp only [Option.map_some'] at hs
          simp only [Option.some_bind]
          exact ih s' t' (Option.some.inj hs)

/-! ### Unfolding lemmas for pass 1 of the compiler -/

lemma length_dropWhile_le (p : Char → Bool) (l : List Char) :
    (l.dropWhile p).length ≤ l.length := by
  induction l with
  | nil => simp [List.dropWhile]
  | cons a l ih =>
    rw [List.dropWhile_cons]
    split
    · exact le_trans ih (by simp)
    · simp

lemma emitF_congr : ∀ (f g : ℕ) (l : List Char), l.length ≤ f → l.length ≤ g →
    emitF f l = emitF g l := by
  intro f
  induction f with
  | zero =>
    intro g l hf _
    obtain rfl : l = [] := List.length_eq_zero.mp (Nat.le_zero.mp hf)
    cases g <;> rfl
  | succ f ih =>
    intro g l hf hg
    cases l with
    | nil => cases g <;> rfl
    | cons c rest =>
      cases g with
      | zero => exact absurd hg (by simp)
      | succ g =>
        have hlf : rest.length ≤ f := by simpa using hf
        have hlg : rest.length ≤ g := by simpa using hg
        have hm := length_dropWhile_le isMove rest
        have ha := length_dropWhile_le isArith rest
        simp only [emitF]
        rw [ih g (rest.dropWhile isMove) (le_trans hm hlf) (le_trans hm hlg),
          ih g (rest.dropWhile isArith) (le_trans ha hlf) (le_trans ha hlg),
          ih g rest hlf hlg]

/-- One-step unfolding of `emit` on a nonempty text. -/
lemma emit_cons (c : Char) (rest : List Char) :
    emit (c :: rest) =
      if isMove c then
        (if 0 < moveDelta c + ((rest.takeWhile isMove).map moveDelta).sum then
          consFst (.pointerLeft (moveDelta c + ((rest.takeWhile isMove).map moveDelta).sum).toNat)
            (emit (rest.dropWhile isMove))
        else if moveDelta c + ((rest.takeWhile isMove).map moveDelta).sum < 0 then
          consFst
            (.pointerRight (-(moveDelta c + ((rest.takeWhile isMove).map moveDelta).sum)).toNat)
            (emit (rest.dropWhile isMove))
        else ([], .halted))
      else if isArith c then
        (if 0 < arithDelta c + ((rest.takeWhile isArith).map arithDelta).sum then
          consFst
            (.add ((arithDelta c + ((rest.takeWhile isArith).map arithDelta).sum).toNat % 256))
            (emit (rest.dropWhile isArith))
        else if arithDelta c + ((rest.takeWhile isArith).map arithDelta).sum < 0 then
          consFst
            (.sub ((-(arithDelta c + ((rest.takeWhile isArith).map arithDelta).sum)).toNat % 256))
            (emit (rest.dropWhile isArith))
        else ([], .halted))
      else if c = '.' then consFst .putChar (emit rest)
      else if c = ',' then consFst .getChar (emit rest)
      else if c = '[' then consFst (.loopStart 0) (emit rest)
      else if c = ']' then consFst (.loopEnd 0) (emit rest)
      else if c = 'c' then consFst .clear (emit rest)
      else if c = 'l' then consFst .scanLeft (emit rest)
      else if c = 'r' then consFst .scanRight (emit rest)
      else ([], .failed) := by
  have hm := length_dropWhile_le isMove rest
  have ha := length_dropWhile_le isArith rest
  show emitF (rest.length + 1) (c :: rest) = _
  simp only [emitF]
  rw [emitF_congr rest.length (rest.dropWhile isMove).length (rest.dropWhile isMove) hm le_rfl,
    emitF_congr rest.length (rest.dropWhile isArith).length (rest.dropWhile isArith) ha le_rfl]
  rfl

lemma takeWhile_append_all {p : Char → Bool} :
    ∀ (l₁ l₂ : List Char), (∀ c ∈ l₁, p c = true) →
      (l₁ ++ l₂).takeWhile p = l₁ ++ l₂.takeWhile p := by
  intro l₁ l₂ h
  induction l₁ with
  | nil => simp
  | cons a l ih =>
    simp only [List.cons_append, List.takeWhile_cons, h a (by simp)]
    simp [ih (fun c hc => h c (by simp [hc]))]

lemma dropWhile_append_all {p : Char → Bool} :
    ∀ (l₁ l₂ : List Char), (∀ c ∈ l₁, p c = true) →
      (l₁ ++ l₂).dropWhile p = l₂.dropWhile p := by
  intro l₁ l₂ h
  induction l₁ with
  | nil => simp
  | cons a l ih =>
    simp only [List.cons_append, List.dropWhile_cons, h a (by simp)]
    simp [ih (fun c hc => h c (by simp [hc]))]

lemma takeWhile_head_neg {p : Char → Bool} (l : List Char)
    (h : ∀ d, l.head? = some d → p d = false) : l.takeWhile p = [] := by
  cases l with
  | nil => rfl
  | cons a l => simp [List.takeWhile_cons, h a rfl]

lemma dropWhile_head_neg {p : Char → Bool} (l : List Char)
    (h : ∀ d, l.head? = some d → p d = false) : l.dropWhile p = l := by
  cases l with
  | nil => rfl
  | cons a l => simp [List.dropWhile_cons, h a rfl]

lemma sum_moveDelta (run : List Char) (h : ∀ c ∈ run, isMove c = true) :
    ((run.map moveDelta).sum : ℤ) = (run.count '>' : ℤ) - (run.count '<' : ℤ) := by
  induction run with
  | nil => simp
  | cons c rs ih =>
    have hc : c = '>' ∨ c = '<' := by
      have := h c (by simp)
      simp only [isMove, Bool.or_eq_true, decide_eq_true_eq] at this
      exact this
    have hrs := ih (fun x hx => h x (by simp [hx]))
    rcases hc with rfl | rfl <;> simp [List.count_cons, moveDelta, hrs] <;> ring

lemma sum_arithDelta (run : List Char) (h : ∀ c ∈ run, isArith c = true) :
    ((run.map arithDelta).sum : ℤ) = (run.count '+' : ℤ) - (run.count '-' : ℤ) := by
  induction run with
  | nil => simp
  | cons c rs ih =>
    have hc : c = '+' ∨ c = '-' := by
      have := h c (by simp)
      simp only [isArith, Bool.or_eq_true, decide_eq_true_eq] at this
      exact this
    have hrs := ih (fun x hx => h x (by simp [hx]))
    rcases hc with rfl | rfl <;> simp [List.count_cons, arithDelta, hrs] <;> ring

/-- Collapsing of a maximal `>`/`<` run at the head of the text. -/
lemma emit_move_run (run rest : List Char) (hne : run ≠ [])
    (hrun : ∀ c ∈ run, isMove c = true)
    (hrest : ∀ d, rest.head? = some d → isMove d = false) :
    emit (run ++ rest) =
      if 0 < ((run.map moveDelta).sum : ℤ) then
        consFst (.pointerLeft ((run.map moveDelta).sum).toNat) (emit rest)
      else if ((run.map moveDelta).sum : ℤ) < 0 then
        consFst (.pointerRight (-(run.map moveDelta).sum).toNat) (emit rest)
      else ([], .halted) := by
  cases run with
  | nil => exact absurd rfl hne
  | cons c rs =>
    have hc : isMove c = true := hrun c (by simp)
    have hrs : ∀ x ∈ rs, isMove x = true := fun x hx => hrun x (by simp [hx])
    rw [List.cons_append, emit_cons, if_pos hc,
      takeWhile_append_all rs rest hrs, dropWhile_append_all rs rest hrs,
      takeWhile_head_neg rest hrest, dropWhile_head_neg rest hrest]
    simp [List.sum_append]

/-- Collapsing of a maximal `+`/`-` run at the head of the text. -/
lemma emit_arith_run (run rest : List Char) (hne : run ≠ [])
    (hrun : ∀ c ∈ run, isArith c = true)
    (hrest : ∀ d, rest.head? = some d → isArith d = false) :
    emit (run ++ rest) =
      if 0 < ((run.map arithDelta).sum : ℤ) then
        consFst (.add (((run.map arithDelta).sum).toNat % 256)) (emit rest)
      else if ((run.map arithDelta).sum : ℤ) < 0 then
        consFst (.sub ((-(run.map arithDelta).sum).toNat % 256)) (emit rest)
      else ([], .halted) := by
  cases run with
  | nil => exact absurd rfl hne
  | cons c rs =>
    have hc : isArith c = true := hrun c (by simp)
    have hmove : isMove c = false := by
      have := hc
      simp only [isArith, Bool.or_eq_true, decide_eq_true_eq] at this
      rcases this with rfl | rfl <;> rfl
    have hrs : ∀ x ∈ rs, isArith x = true := fun x hx => hrun x (by simp [hx])
    rw [List.cons_append, emit_cons, if_neg (by simp [hmove]), if_pos hc,
      takeWhile_append_all rs rest hrs, dropWhile_append_all rs rest hrs,
      takeWhile_head_neg rest hrest, dropWhile_head_neg rest hrest]
    simp [List.sum_append]

/-! ### The scanning loops of the bracket-resolution pass -/

lemma sum_take_succ (ds : List ℤ) (m : ℕ) (d : ℤ) (hd : ds[m]? = some d) :
    (ds.take (m + 1)).sum = (ds.take m).sum + d := by
  rw [List.take_succ, hd]
  simp

lemma mem_of_some_getElem {ds : List ℤ} {m : ℕ} {d : ℤ} (h : ds[m]? = some d) : d ∈ ds := by
  obtain ⟨hlt, rfl⟩ := List.getElem?_eq_some.mp h
  exact List.getElem_mem hlt

lemma seekF_eq_some : ∀ {ds : List ℤ} {c : ℤ} {n : ℕ}, seekF ds c = some n →
    n < ds.length ∧ c + (ds.take (n + 1)).sum = 0 ∧
      ∀ m < n, c + (ds.take (m + 1)).sum ≠ 0 := by
  intro ds
  induction ds with
  | nil => intro c n h; exact Option.noConfusion h
  | cons d rest ih =>
    intro c n h
    simp only [seekF] at h
    by_cases hcd : c + d = 0
    · rw [if_pos hcd] at h
      obtain rfl := Option.some.inj h
      exact ⟨by simp, by simpa using hcd, fun m hm => absurd hm (Nat.not_lt_zero m)⟩
    · rw [if_neg hcd] at h
      rcases Option.map_eq_some'.mp h with ⟨n', hn', rfl⟩
      obtain ⟨h1, h2, h3⟩ := ih hn'
      refine ⟨by simpa using h1, ?_, ?_⟩
      · have : (d :: rest).take (n' + 1 + 1) = d :: rest.take (n' + 1) := rfl
        rw [this, List.sum_cons, ← add_assoc]
        exact h2
      · intro m hm
        cases m with
        | zero => simpa using hcd
        | succ m =>
          have : (d :: rest).take (m + 1 + 1) = d :: rest.take (m + 1) := rfl
          rw [this, List.sum_cons, ← add_assoc]
          exact h3 m (by omega)

lemma seekF_of_spec : ∀ {ds : List ℤ} {c : ℤ} {n : ℕ}, n < ds.length →
    c + (ds.take (n + 1)).sum = 0 → (∀ m < n, c + (ds.take (m + 1)).sum ≠ 0) →
    seekF ds c = some n := by
  intro ds
  induction ds with
  | nil => intro c n h1 _ _; exact absurd h1 (by simp)
  | cons d rest ih =>
    intro c n h1 h2 h3
    simp only [seekF]
    cases n with
    | zero =>
      rw [if_pos (by simpa using h2)]
    | succ n =>
      have hc0 : c + d ≠ 0 := by simpa using h3 0 (by omega)
      rw [if_neg hc0]
      have hr : seekF rest (c + d) = some n := by
        refine ih (by simpa using h1) ?_ ?_
        · have : (d :: rest).take (n + 1 + 1) = d :: rest.take (n + 1) := rfl
          rw [this, List.sum_cons, ← add_assoc] at h2
          exact h2
        · intro m hm
          have := h3 (m + 1) (by omega)
          have heq : (d :: rest).take (m + 1 + 1) = d :: rest.take (m + 1) := rfl
          rw [heq, List.sum_cons, ← add_assoc] at this
          exact this
      rw [hr]
      rfl

lemma seekF_eq_none : ∀ {ds : List ℤ} {c : ℤ},
    (∀ m < ds.length, c + (ds.take (m + 1)).sum ≠ 0) → seekF ds c = none := by
  intro ds
  induction ds with
  | nil => intro c _; rfl
  | cons d rest ih =>
    intro c h
    simp only [seekF]
    rw [if_neg (by simpa using h 0 (by simp)), ih]
    · rfl
    · intro m hm
      have := h (m + 1) (by simpa using Nat.succ_lt_succ hm)
      have heq : (d :: rest).take (m + 1 + 1) = d :: rest.take (m + 1) := rfl
      rw [heq, List.sum_cons, ← add_assoc] at this
      exact this

lemma seekF_total : ∀ {ds : List ℤ}, (∀ d ∈ ds, d = 1 ∨ d = 0 ∨ d = -1) →
    ∀ c : ℤ, 0 < c → c + ds.sum ≤ 0 → ∃ n, seekF ds c = some n := by
  intro ds
  induction ds with
  | nil => intro _ c hc hs; simp at hs; omega
  | cons d rest ih =>
    intro hd c hc hs
    simp only [seekF]
    by_cases hcd : c + d = 0
    · exact ⟨0, by rw [if_pos hcd]⟩
    · have hd1 : d = 1 ∨ d = 0 ∨ d = -1 := hd d (by simp)
      have hpos : 0 < c + d := by rcases hd1 with rfl | rfl | rfl <;> omega
      obtain ⟨n, hn⟩ := ih (fun x hx => hd x (by simp [hx])) (c + d) hpos
        (by rw [List.sum_cons] at hs; omega)
      exact ⟨n + 1, by rw [if_neg hcd, hn]; rfl⟩

/-- What a successful scan starting at counter 1 over ±1/0 deltas gives:
the scan stops strictly inside the list, on a -1 entry, the block in
between sums to zero and all its prefixes are nonnegative. -/
lemma seekF_one_spec {ds : List ℤ} {n : ℕ}
    (hd : ∀ d ∈ ds, d = 1 ∨ d = 0 ∨ d = -1)
    (h : seekF ds 1 = some n) :
    n < ds.length ∧ ds[n]? = some (-1) ∧ (ds.take n).sum = 0 ∧
      ∀ m ≤ n, 0 ≤ (ds.take m).sum := by
  obtain ⟨h1, h2, h3⟩ := seekF_eq_some h
  have hpos : ∀ m ≤ n, 0 ≤ (ds.take m).sum := by
    intro m
    induction m with
    | zero => intro _; simp
    | succ m ih =>
      intro hm
      have hm' : m < n := by omega
      have hmlt : m < ds.length := by omega
      obtain ⟨d, hdm⟩ : ∃ d, ds[m]? = some d :=
        ⟨ds[m], List.getElem?_eq_some.mpr ⟨hmlt, rfl⟩⟩
      have hdval := hd d (mem_of_some_getElem hdm)
      have hsum := sum_take_succ ds m d hdm
      have hne := h3 m hm'
      have ihm := ih (by omega)
      rw [hsum] at hne ⊢
      rcases hdval with rfl | rfl | rfl <;> omega
  obtain ⟨d, hdn⟩ : ∃ d, ds[n]? = some d := ⟨ds[n], List.getElem?_eq_some.mpr ⟨h1, rfl⟩⟩
  have hdval := hd d (mem_of_some_getElem hdn)
  have hsum := sum_take_succ ds n d hdn
  have h0 := hpos n le_rfl
  rw [hsum] at h2
  have hfin : d = -1 ∧ (ds.take n).sum = 0 := by rcases hdval with rfl | rfl | rfl <;> omega
  exact ⟨h1, hfin.1 ▸ hdn, hfin.2, hpos⟩

/-- A scan passes unharmed through a block whose running counters never
reach zero. -/
lemma seekF_append : ∀ (A B : List ℤ) (c : ℤ),
    (∀ m < A.length, c + (A.take (m + 1)).sum ≠ 0) →
    seekF (A ++ B) c = (seekF B (c + A.sum)).map (· + A.length) := by
  intro A
  induction A with
  | nil =>
    intro B c _
    simp only [List.nil_append, List.sum_nil, add_zero, List.length_nil]
    cases seekF B c <;> simp
  | cons a A ih =>
    intro B c hA
    have h0 : c + a ≠ 0 := by simpa using hA 0 (by simp)
    simp only [List.cons_append, seekF, if_neg h0, List.append_eq]
    rw [ih B (c + a) ?side]
    case side =>
      intro m hm
      have := hA (m + 1) (by simpa using Nat.succ_lt_succ hm)
      have heq : (a :: A).take (m + 1 + 1) = a :: A.take (m + 1) := rfl
      rw [heq, List.sum_cons, ← add_assoc] at this
      exact this
    have hsum : c + a + A.sum = c + (a :: A).sum := by rw [List.sum_cons]; ring
    rw [hsum]
    cases seekF B (c + (a :: A).sum) <;> (simp; try omega)

lemma take_reverse_eq (l : List ℤ) (k : ℕ) :
    l.reverse.take k = (l.drop (l.length - k)).reverse := by
  calc l.reverse.take k = ((l.reverse.take k).reverse).reverse := by rw [List.reverse_reverse]
    _ = (List.drop (l.reverse.length - k) l.reverse.reverse).reverse := by
        rw [List.reverse_take]
    _ = (l.drop (l.length - k)).reverse := by rw [List.reverse_reverse, List.length_reverse]

lemma sum_take_reverse (l : List ℤ) (k : ℕ) (_hk : k ≤ l.length) :
    (l.reverse.take k).sum = l.sum - (l.take (l.length - k)).sum := by
  rw [take_reverse_eq, List.sum_reverse]
  have h1 := List.sum_take_add_sum_drop l (l.length - k)
  omega

lemma sum_map_neg (l : List ℤ) : (l.map (fun d => -d)).sum = -l.sum := by
  induction l with
  | nil => simp
  | cons a l ih => simp [ih]; ring

/-- Running counters stay positive over the reversed, negated copy of a
zero-sum block with nonnegative prefixes. -/
lemma revneg_counters (mid : List ℤ) (hsum : mid.sum = 0)
    (hpre : ∀ m ≤ mid.length, 0 ≤ (mid.take m).sum) :
    ∀ k < (mid.reverse.map (fun d => -d)).length,
      (1 : ℤ) + ((mid.reverse.map (fun d => -d)).take (k + 1)).sum ≠ 0 := by
  intro k hk
  have hk' : k + 1 ≤ mid.length := by
    simp only [List.length_map, List.length_reverse] at hk
    omega
  have h1 : ((mid.reverse.map (fun d => -d)).take (k + 1)).sum
      = -((mid.reverse.take (k + 1)).sum) := by
    rw [← List.map_take, sum_map_neg]
  rw [h1, sum_take_reverse mid (k + 1) hk', hsum]
  have := hpre (mid.length - (k + 1)) (by omega)
  omega

/-- The key step shared by both directions of the mutual-target lemma:
scanning from counter 1 over the reversed negated copy of a balanced block
followed by a -1 stops exactly on that -1. -/
lemma seekF_block (mid C : List ℤ) (hsum : mid.sum = 0)
    (hpre : ∀ m ≤ mid.length, 0 ≤ (mid.take m).sum) :
    seekF ((mid.reverse.map (fun d => -d)) ++ (-1) :: C) 1 = some mid.length := by
  rw [seekF_append _ _ 1 (revneg_counters mid hsum hpre)]
  have hs : (mid.reverse.map (fun d => -d)).sum = 0 := by
    rw [sum_map_neg, List.sum_reverse, hsum]
    ring
  rw [hs]
  simp [seekF]

lemma instrDelta_cases (p : List Instr) : ∀ d ∈ p.map instrDelta, d = 1 ∨ d = 0 ∨ d = -1 := by
  intro d hd
  obtain ⟨x, _, rfl⟩ := List.mem_map.mp hd
  cases x <;> simp [instrDelta]

/-- If the forward scan of a `loopStart` at `i` stops at `j`, then `j` is a
`loopEnd` inside the program and its backward scan stops exactly at `i`. -/
lemma fwd_to_bwd {p : List Instr} {i j : ℕ}
    (hi : (p.map instrDelta)[i]? = some 1)
    (hf : fwdTarget p i = some j) :
    j < p.length ∧ (p.map instrDelta)[j]? = some (-1) ∧ bwdTarget p j = some i := by
  have hdmem := instrDelta_cases p
  rcases Option.map_eq_some'.mp hf with ⟨n, hn, hj⟩
  subst hj
  obtain ⟨hnlt, hdn, hmid0, hmidpre⟩ := seekF_one_spec
    (fun d hd => hdmem d (List.mem_of_mem_drop hd)) hn
  have hilt : i < (p.map instrDelta).length := (List.getElem?_eq_some.mp hi).1
  have hplen : (p.map instrDelta).length = p.length := List.length_map _ _
  rw [List.length_drop] at hnlt
  have hjlt : i + 1 + n < p.length := by omega
  have hdj : (p.map instrDelta)[i + 1 + n]? = some (-1) := by
    rw [← List.getElem?_drop]
    exact hdn
  refine ⟨hjlt, hdj, ?_⟩
  have htake1 : (p.map instrDelta).take (i + 1) = (p.map instrDelta).take i ++ [1] := by
    rw [List.take_succ, hi]
    rfl
  have hdecomp : (p.map instrDelta).take (i + 1 + n)
      = ((p.map instrDelta).take i ++ [1]) ++ ((p.map instrDelta).drop (i + 1)).take n := by
    rw [List.take_add, htake1]
  have hrev : (((p.map instrDelta).take (i + 1 + n)).reverse).map (fun d => -d)
      = ((((p.map instrDelta).drop (i + 1)).take n).reverse.map (fun d => -d))
        ++ (-1) :: (((p.map instrDelta).take i).reverse.map (fun d => -d)) := by
    rw [hdecomp]
    simp [List.reverse_append, List.map_append]
  have hmlen : (((p.map instrDelta).drop (i + 1)).take n).length = n := by
    rw [List.length_take, List.length_drop]
    exact inf_eq_left.mpr (by omega)
  have hpre' : ∀ m ≤ (((p.map instrDelta).drop (i + 1)).take n).length,
      0 ≤ ((((p.map instrDelta).drop (i + 1)).take n).take m).sum := by
    intro m hm
    rw [hmlen] at hm
    rw [List.take_take, inf_eq_left.mpr hm]
    exact hmidpre m hm
  show (seekF (((p.map instrDelta).take (i + 1 + n)).reverse.map (fun d => -d)) 1).map
      (fun q => i + 1 + n - 1 - q) = some i
  rw [hrev, seekF_block _ _ hmid0 hpre', Option.map_some']
  exact congrArg some (by rw [hmlen]; omega)

/-- If the backward scan of a `loopEnd` at `j` stops at `i`, then `i` is a
`loopStart` before `j` and its forward scan stops exactly at `j`. -/
lemma bwd_to_fwd {p : List Instr} {i j : ℕ}
    (hj : (p.map instrDelta)[j]? = some (-1))
    (hb : bwdTarget p j = some i) :
    i < j ∧ (p.map instrDelta)[i]? = some 1 ∧ fwdTarget p i = some j := by
  have hdmem := instrDelta_cases p
  rcases Option.map_eq_some'.mp hb with ⟨n, hn, hi⟩
  have hjlt : j < (p.map instrDelta).length := (List.getElem?_eq_some.mp hj).1
  have hbsmem : ∀ d ∈ ((p.map instrDelta).take j).reverse.map (fun d => -d),
      d = 1 ∨ d = 0 ∨ d = -1 := by
    intro d hd
    obtain ⟨x, hx, rfl⟩ := List.mem_map.mp hd
    have hx' : x ∈ p.map instrDelta := List.mem_of_mem_take (List.mem_reverse.mp hx)
    rcases hdmem x hx' with rfl | rfl | rfl <;> simp
  obtain ⟨hnlt, hbn, hmid0, hmidpre⟩ := seekF_one_spec hbsmem hn
  have hbslen : (((p.map instrDelta).take j).reverse.map (fun d => -d)).length
      = ((p.map instrDelta).take j).length := by
    rw [List.length_map, List.length_reverse]
  have htjlen : ((p.map instrDelta).take j).length = j := by
    rw [List.length_take]
    exact inf_eq_left.mpr hjlt.le
  have hnj : n < j := by rw [hbslen, htjlen] at hnlt; exact hnlt
  subst hi
  refine ⟨by omega, ?_, ?_⟩
  · -- the entry under the stop of the backward scan is a loopStart
    have hgeti : ((p.map instrDelta).take j).reverse[n]? = (p.map instrDelta)[j - 1 - n]? := by
      rw [List.getElem?_reverse (by rw [htjlen]; exact hnj), htjlen, List.getElem?_take]
      rw [if_pos (by omega)]
    have hbn' : ((p.map instrDelta)[j - 1 - n]?).map (fun d => -d) = some (-1) := by
      rw [← hgeti, ← List.getElem?_map]
      exact hbn
    rcases hcase : (p.map instrDelta)[j - 1 - n]? with _ | d
    · rw [hcase] at hbn'; exact Option.noConfusion hbn'
    · rw [hcase] at hbn'
      simp only [Option.map_some', Option.some.injEq] at hbn'
      exact congrArg some (by omega)
  · -- the forward scan from the stop goes back to j
    have hA : (((p.map instrDelta).take j).reverse.map (fun d => -d)).take n
        = (((p.map instrDelta).drop (j - 1 - n + 1)).take n).reverse.map (fun d => -d) := by
      rw [← List.map_take]
      congr 1
      rw [take_reverse_eq]
      have h5 : ((p.map instrDelta).take j).length - n = j - n := by rw [htjlen]
      rw [h5, List.drop_take]
      have h6 : j - (j - n) = n := by omega
      have h7 : j - n = j - 1 - n + 1 := by omega
      rw [h6, h7]
    have hA2 : ((p.map instrDelta).drop (j - 1 - n + 1)).take n
        = ((((p.map instrDelta).take j).reverse.map (fun d => -d)).take n).reverse.map
          (fun d => -d) := by
      rw [hA]
      simp [List.map_reverse, List.reverse_reverse, List.map_map, Function.comp_def, neg_neg]
    have hbtn : ((((p.map instrDelta).take j).reverse.map (fun d => -d)).take n).length = n := by
      rw [List.length_take]
      exact inf_eq_left.mpr hnlt.le
    have hfb := seekF_block ((((p.map instrDelta).take j).reverse.map (fun d => -d)).take n)
        ((p.map instrDelta).drop (j + 1)) hmid0 ?pre
    case pre =>
      intro m hm
      rw [hbtn] at hm
      rw [List.take_take, inf_eq_left.mpr hm]
      exact hmidpre m hm
    have hdecomp : (p.map instrDelta).drop (j - 1 - n + 1)
        = ((p.map instrDelta).drop (j - 1 - n + 1)).take n
          ++ (-1) :: (p.map instrDelta).drop (j + 1) := by
      conv_lhs => rw [← List.take_append_drop n ((p.map instrDelta).drop (j - 1 - n + 1))]
      congr 1
      rw [List.drop_drop]
      have h8 : j - 1 - n + 1 + n = j := by omega
      rw [h8]
      obtain ⟨hlt, hv⟩ := List.getElem?_eq_some.mp hj
      rw [List.drop_eq_getElem_cons hlt, hv]
    show (seekF ((p.map instrDelta).drop (j - 1 - n + 1)) 1).map
        (fun q => j - 1 - n + 1 + q) = some j
    rw [hdecomp, hA2, hfb, Option.map_some']
    exact congrArg some (by rw [hbtn]; omega)

/-! ### Characterization of the whole resolution pass -/

lemma balanced_iff_b (ds : List ℤ) : Balanced ds ↔ BalancedB ds := by
  constructor
  · rintro ⟨h1, h2⟩; exact ⟨fun m _ => h1 m, h2⟩
  · rintro ⟨h1, h2⟩
    refine ⟨fun m => ?_, h2⟩
    by_cases hm : m < ds.length + 1
    · exact h1 m hm
    · rw [List.take_of_length_le (by omega)]
      have := h1 ds.length (by omega)
      rwa [List.take_of_length_le le_rfl] at this

/-- On a balanced program, the forward scan of a `loopStart` terminates. -/
lemma fwd_total {p : List Instr} {i : ℕ} (hbal : Balanced (p.map instrDelta))
    (hi : (p.map instrDelta)[i]? = some 1) : fwdTarget p i ≠ none := by
  obtain ⟨hpre, hsum⟩ := hbal
  have h1 : ((p.map instrDelta).take (i + 1)).sum = ((p.map instrDelta).take i).sum + 1 :=
    sum_take_succ _ i 1 hi
  have hdrop := List.sum_take_add_sum_drop (p.map instrDelta) (i + 1)
  obtain ⟨n, hn⟩ : ∃ n, seekF ((p.map instrDelta).drop (i + 1)) 1 = some n :=
    seekF_total (fun d hd => instrDelta_cases p d (List.mem_of_mem_drop hd)) 1 (by omega)
      (by have := hpre i; omega)
  unfold fwdTarget
  rw [hn]
  simp

/-- On a balanced program, the backward scan of a `loopEnd` terminates. -/
lemma bwd_total {p : List Instr} {j : ℕ} (hbal : Balanced (p.map instrDelta))
    (hj : (p.map instrDelta)[j]? = some (-1)) : bwdTarget p j ≠ none := by
  obtain ⟨hpre, hsum⟩ := hbal
  have h1 : ((p.map instrDelta).take (j + 1)).sum = ((p.map instrDelta).take j).sum + (-1) :=
    sum_take_succ _ j (-1) hj
  have hsneg : (((p.map instrDelta).take j).reverse.map (fun d => -d)).sum
      = -(((p.map instrDelta).take j).sum) := by
    rw [sum_map_neg, List.sum_reverse]
  have hbsmem : ∀ d ∈ ((p.map instrDelta).take j).reverse.map (fun d => -d),
      d = 1 ∨ d = 0 ∨ d = -1 := by
    intro d hd
    obtain ⟨x, hx, rfl⟩ := List.mem_map.mp hd
    have hx' : x ∈ p.map instrDelta := List.mem_of_mem_take (List.mem_reverse.mp hx)
    rcases instrDelta_cases p x hx' with rfl | rfl | rfl <;> simp
  obtain ⟨n, hn⟩ := seekF_total hbsmem 1 (by omega)
    (by rw [hsneg]; have := hpre (j + 1); omega)
  unfold bwdTarget
  rw [hn]
  simp

lemma fwdTarget_congr {p q : List Instr} (h : q.map instrDelta = p.map instrDelta) (i : ℕ) :
    fwdTarget q i = fwdTarget p i := by unfold fwdTarget; rw [h]

lemma bwdTarget_congr {p q : List Instr} (h : q.map instrDelta = p.map instrDelta) (i : ℕ) :
    bwdTarget q i = bwdTarget p i := by unfold bwdTarget; rw [h]

/-- Behaviour of one iteration of the resolution loop over a program whose
entry classes agree with `p` and whose already-written entries are either
original or final. -/
lemma resolveStep_cases {p q : List Instr} (i : ℕ)
    (hδ : q.map instrDelta = p.map instrDelta)
    (hq : ∀ m, q[m]? = p[m]? ∨ q[m]? = resolvedAt p m) :
    (¬ scanOk p i → resolveStep q i = none) ∧
    (scanOk p i →
      ∃ q'', resolveStep q i = some q'' ∧
        q''.map instrDelta = p.map instrDelta ∧
        (∀ m, q''[m]? = p[m]? ∨ q''[m]? = resolvedAt p m) ∧
        (∀ m, q[m]? = resolvedAt p m → q''[m]? = resolvedAt p m) ∧
        q''[i]? = resolvedAt p i) := by
  have hlen : q.length = p.length := by
    have := congrArg List.length hδ
    simpa using this
  rcases hpi : p[i]? with _ | x
  · have hilt : p.length ≤ i := List.getElem?_eq_none_iff.mp hpi
    have hqi : q[i]? = none := List.getElem?_eq_none (by omega)
    have hstep : resolveStep q i = some q := by unfold resolveStep; rw [hqi]
    have hres : resolvedAt p i = none := by unfold resolvedAt; rw [hpi]
    have hscan : scanOk p i := by unfold scanOk; rw [hpi]; trivial
    exact ⟨fun hns => absurd hscan hns,
      fun _ => ⟨q, hstep, hδ, hq, fun m hm => hm, by rw [hqi, hres]⟩⟩
  cases x
  case loopStart t =>
    have hilt : i < p.length := (List.getElem?_eq_some.mp hpi).1
    obtain ⟨t', hqi⟩ : ∃ t', q[i]? = some (.loopStart t') := by
      rcases hq i with h | h
      · exact ⟨t, by rw [h, hpi]⟩
      · rcases hft : fwdTarget p i with _ | j
        · exfalso
          have hn : q[i]? = none := by rw [h]; unfold resolvedAt; rw [hpi, hft]; rfl
          have := List.getElem?_eq_none_iff.mp hn
          omega
        · exact ⟨j, by rw [h]; unfold resolvedAt; rw [hpi, hft]; rfl⟩
    have hiq : i < q.length := (List.getElem?_eq_some.mp hqi).1
    have hstep : resolveStep q i = (fwdTarget p i).map (fun j => q.set i (.loopStart j)) := by
      unfold resolveStep
      rw [hqi, fwdTarget_congr hδ]
    have hscan : scanOk p i ↔ fwdTarget p i ≠ none := by unfold scanOk; rw [hpi]
    rcases hft : fwdTarget p i with _ | j
    · rw [hft] at hstep
      refine ⟨fun _ => hstep, fun hs => absurd hft (hscan.mp hs)⟩
    · rw [hft] at hstep
      have hres : resolvedAt p i = some (.loopStart j) := by
        unfold resolvedAt; rw [hpi, hft]; rfl
      have hset_delta : (q.set i (.loopStart j)).map instrDelta = p.map instrDelta := by
        rw [← hδ]
        apply List.ext_getElem?
        intro m
        rw [List.getElem?_map, List.getElem?_map]
        by_cases hm : i = m
        · subst hm
          rw [List.getElem?_set_self hiq, hqi]
          rfl
        · rw [List.getElem?_set_ne hm]
      refine ⟨fun hns => absurd (hscan.mpr (by simp [hft])) hns,
        fun _ => ⟨q.set i (.loopStart j), hstep, hset_delta, ?_, ?_, ?_⟩⟩
      · intro m
        by_cases hm : i = m
        · subst hm
          right
          rw [List.getElem?_set_self hiq, hres]
        · rw [List.getElem?_set_ne hm]; exact hq m
      · intro m hm
        by_cases hm' : i = m
        · subst hm'
          rw [List.getElem?_set_self hiq, hres]
        · rw [List.getElem?_set_ne hm']; exact hm
      · rw [List.getElem?_set_self hiq, hres]
  case loopEnd t =>
    have hilt : i < p.length := (List.getElem?_eq_some.mp hpi).1
    obtain ⟨t', hqi⟩ : ∃ t', q[i]? = some (.loopEnd t') := by
      rcases hq i with h | h
      · exact ⟨t, by rw [h, hpi]⟩
      · rcases hft : bwdTarget p i with _ | j
        · exfalso
          have hn : q[i]? = none := by rw [h]; unfold resolvedAt; rw [hpi, hft]; rfl
          have := List.getElem?_eq_none_iff.mp hn
          omega
        · exact ⟨j, by rw [h]; unfold resolvedAt; rw [hpi, hft]; rfl⟩
    have hiq : i < q.length := (List.getElem?_eq_some.mp hqi).1
    have hstep : resolveStep q i = (bwdTarget p i).map (fun j => q.set i (.loopEnd j)) := by
      unfold resolveStep
      rw [hqi, bwdTarget_congr hδ]
    have hscan : scanOk p i ↔ bwdTarget p i ≠ none := by unfold scanOk; rw [hpi]
    rcases hft : bwdTarget p i with _ | j
    · rw [hft] at hstep
      refine ⟨fun _ => hstep, fun hs => absurd hft (hscan.mp hs)⟩
    · rw [hft] at hstep
      have hres : resolvedAt p i = some (.loopEnd j) := by
        unfold resolvedAt; rw [hpi, hft]; rfl
      have hset_delta : (q.set i (.loopEnd j)).map instrDelta = p.map instrDelta := by
        rw [← hδ]
        apply List.ext_getElem?
        intro m
        rw [List.getElem?_map, List.getElem?_map]
        by_cases hm : i = m
        · subst hm
          rw [List.getElem?_set_self hiq, hqi]
          rfl
        · rw [List.getElem?_set_ne hm]
      refine ⟨fun hns => absurd (hscan.mpr (by simp [hft])) hns,
        fun _ => ⟨q.set i (.loopEnd j), hstep, hset_delta, ?_, ?_, ?_⟩⟩
      · intro m
        by_cases hm : i = m
        · subst hm
          right
          rw [List.getElem?_set_self hiq, hres]
        · rw [List.getElem?_set_ne hm]; exact hq m
      · intro m hm
        by_cases hm' : i = m
        · subst hm'
          rw [List.getElem?_set_self hiq, hres]
        · rw [List.getElem?_set_ne hm']; exact hm
      · rw [List.getElem?_set_self hiq, hres]
  all_goals {
    have hqi : q[i]? = p[i]? := by
      rcases hq i with h | h
      · exact h
      · rw [h]; unfold resolvedAt; rw [hpi]
    have hstep : resolveStep q i = some q := by unfold resolveStep; rw [hqi, hpi]
    have hres : resolvedAt p i = p[i]? := by unfold resolvedAt; rw [hpi]
    have hscan : scanOk p i := by unfold scanOk; rw [hpi]; trivial
    exact ⟨fun hns => absurd hscan hns,
      fun _ => ⟨q, hstep, hδ, hq, fun m hm => hm, by rw [hqi, hres, hpi]⟩⟩ }

/-- Running the resolution loop over a list of positions whose scans all
terminate: it succeeds and writes the final entry at each visited
position, leaving every entry either original or final. -/
lemma resolveGo_spec : ∀ (l : List ℕ) (p q : List Instr),
    q.map instrDelta = p.map instrDelta →
    (∀ m, q[m]? = p[m]? ∨ q[m]? = resolvedAt p m) →
    (∀ i ∈ l, scanOk p i) →
    ∃ q', resolveGo l q = some q' ∧ q'.map instrDelta = p.map instrDelta ∧
      (∀ m, q'[m]? = p[m]? ∨ q'[m]? = resolvedAt p m) ∧
      (∀ m, q[m]? = resolvedAt p m → q'[m]? = resolvedAt p m) ∧
      (∀ i ∈ l, q'[i]? = resolvedAt p i) := by
  intro l
  induction l with
  | nil =>
    intro p q hδ hq _
    exact ⟨q, rfl, hδ, hq, fun m hm => hm, by simp⟩
  | cons i rest ih =>
    intro p q hδ hq hscan
    obtain ⟨_, hsome⟩ := resolveStep_cases i hδ hq
    obtain ⟨q'', hstep, hδ'', hq'', hpres'', hres''⟩ := hsome (hscan i (by simp))
    obtain ⟨q', hgo, hδ', hq', hpres', hall⟩ :=
      ih p q'' hδ'' hq'' (fun m hm => hscan m (by simp [hm]))
    refine ⟨q', ?_, hδ', hq', ?_, ?_⟩
    · show (match resolveStep q i with
        | none => none
        | some p' => resolveGo rest p') = some q'
      rw [hstep]
      exact hgo
    · intro m hm
      exact hpres' m (hpres'' m hm)
    · intro m hm
      rcases List.mem_cons.mp hm with rfl | hm'
      · exact hpres' m hres''
      · exact hall m hm'

/-- Conversely, if the resolution loop succeeds then every visited scan
terminates. -/
lemma resolveGo_scanOk : ∀ (l : List ℕ) (p q q' : List Instr),
    q.map instrDelta = p.map instrDelta →
    (∀ m, q[m]? = p[m]? ∨ q[m]? = resolvedAt p m) →
    resolveGo l q = some q' → ∀ i ∈ l, scanOk p i := by
  intro l
  induction l with
  | nil => intro p q q' _ _ _ i hi; simp at hi
  | cons i0 rest ih =>
    intro p q q' hδ hq hgo i hi
    rcases hstep : resolveStep q i0 with _ | q''
    · exfalso
      have hnone : resolveGo (i0 :: rest) q = none := by
        show (match resolveStep q i0 with
          | none => none
          | some p' => resolveGo rest p') = none
        rw [hstep]
      rw [hnone] at hgo
      exact Option.noConfusion hgo
    · have hgo' : resolveGo rest q'' = some q' := by
        have heq : resolveGo (i0 :: rest) q = resolveGo rest q'' := by
          show (match resolveStep q i0 with
            | none => none
            | some p' => resolveGo rest p') = _
          rw [hstep]
        rw [← heq]
        exact hgo
      obtain ⟨hnone, hsome⟩ := resolveStep_cases i0 hδ hq
      have hscan0 : scanOk p i0 := by
        by_contra hns
        exact Option.noConfusion ((hnone hns).symm.trans hstep)
      rcases List.mem_cons.mp hi with rfl | hi'
      · exact hscan0
      · obtain ⟨q3, hstep', hδ'', hq'', _, _⟩ := hsome hscan0
        obtain rfl : q'' = q3 := Option.some.inj (hstep.symm.trans hstep')
        exact ih p q'' q' hδ'' hq'' hgo' i hi'

/-! ### A successful resolution pass forces balanced brackets -/

lemma instr_of_delta_end {p : List Instr} {j : ℕ}
    (h : (p.map instrDelta)[j]? = some (-1)) : ∃ t, p[j]? = some (.loopEnd t) := by
  rw [List.getElem?_map] at h
  rcases hpj : p[j]? with _ | y
  · rw [hpj] at h; exact Option.noConfusion h
  · rw [hpj] at h
    simp only [Option.map_some', Option.some.injEq] at h
    cases y <;> first
      | exact ⟨_, rfl⟩
      | simp [instrDelta] at h

lemma instr_of_delta_start {p : List Instr} {i : ℕ}
    (h : (p.map instrDelta)[i]? = some 1) : ∃ t, p[i]? = some (.loopStart t) := by
  rw [List.getElem?_map] at h
  rcases hpi : p[i]? with _ | y
  · rw [hpi] at h; exact Option.noConfusion h
  · rw [hpi] at h
    simp only [Option.map_some', Option.some.injEq] at h
    cases y <;> first
      | exact ⟨_, rfl⟩
      | simp [instrDelta] at h

/-- If every scan of the resolution pass terminates, the program's
brackets are balanced. -/
lemma scans_imply_balanced (p : List Instr)
    (hscan : ∀ i < p.length, scanOk p i) :
    Balanced (p.map instrDelta) := by
  have hlen_eq : (p.map instrDelta).length = p.length := List.length_map _ _
  have hpre : ∀ t, 0 ≤ ((p.map instrDelta).take t).sum := by
    by_contra hcon
    push_neg at hcon
    have hex : ∃ t, ((p.map instrDelta).take t).sum < 0 := by
      obtain ⟨t, ht⟩ := hcon
      exact ⟨t, ht⟩
    have hmin := Nat.find_spec hex
    have hminlt : ∀ u < Nat.find hex, 0 ≤ ((p.map instrDelta).take u).sum := by
      intro u hu
      have := Nat.find_min hex hu
      omega
    have ht0pos : Nat.find hex ≠ 0 := by
      intro h0
      rw [h0] at hmin
      simp at hmin
    obtain ⟨j, hj⟩ : ∃ j, Nat.find hex = j + 1 := ⟨Nat.find hex - 1, by omega⟩
    rw [hj] at hmin
    have hminlt' : ∀ u ≤ j, 0 ≤ ((p.map instrDelta).take u).sum :=
      fun u hu => hminlt u (by omega)
    have hjlen : j < (p.map instrDelta).length := by
      by_contra hge
      push_neg at hge
      have e1 : (p.map instrDelta).take (j + 1) = p.map instrDelta :=
        List.take_of_length_le (by omega)
      have e2 : (p.map instrDelta).take j = p.map instrDelta := List.take_of_length_le hge
      have := hminlt' j le_rfl
      rw [e2] at this
      rw [e1] at hmin
      omega
    obtain ⟨d, hdj⟩ : ∃ d, (p.map instrDelta)[j]? = some d :=
      ⟨_, List.getElem?_eq_some.mpr ⟨hjlen, rfl⟩⟩
    have hdval := instrDelta_cases p d (mem_of_some_getElem hdj)
    have hstep := sum_take_succ (p.map instrDelta) j d hdj
    have hSj := hminlt' j le_rfl
    have hd : d = -1 := by rcases hdval with rfl | rfl | rfl <;> omega
    subst hd
    have hSj0 : ((p.map instrDelta).take j).sum = 0 := by omega
    obtain ⟨t2, hpj⟩ := instr_of_delta_end hdj
    have hjlen2 : ((p.map instrDelta).take j).length = j := by
      rw [List.length_take]
      exact inf_eq_left.mpr (by omega)
    have hfail : bwdTarget p j = none := by
      unfold bwdTarget
      rw [seekF_eq_none ?cnt]
      · rfl
      case cnt =>
        intro m hm
        have hm' : m + 1 ≤ ((p.map instrDelta).take j).length := by
          simp only [List.length_map, List.length_reverse] at hm
          omega
        have hbt : ((((p.map instrDelta).take j).reverse.map (fun d => -d)).take (m + 1)).sum
            = -((((p.map instrDelta).take j).reverse.take (m + 1)).sum) := by
          rw [← List.map_take, sum_map_neg]
        rw [hbt, sum_take_reverse _ _ hm', hSj0, List.take_take, hjlen2]
        rw [inf_eq_left.mpr (by omega : j - (m + 1) ≤ j)]
        have := hminlt' (j - (m + 1)) (by omega)
        omega
    have hsc := hscan j (by omega)
    unfold scanOk at hsc
    rw [hpj] at hsc
    exact hsc hfail
  refine ⟨hpre, ?_⟩
  by_contra hne
  have htpos : 0 < (p.map instrDelta).sum := by
    have := hpre (p.map instrDelta).length
    rw [List.take_of_length_le le_rfl] at this
    omega
  have hne' : ((Finset.range ((p.map instrDelta).length + 1)).image
      (fun t => ((p.map instrDelta).take t).sum)).Nonempty :=
    (Finset.nonempty_range_iff.mpr (by omega)).image _
  obtain ⟨t0, ht0mem, ht0⟩ := Finset.mem_image.mp (Finset.min'_mem _ hne')
  have ht0le : t0 ≤ (p.map instrDelta).length := by
    have := Finset.mem_range.mp ht0mem
    omega
  have hμle : ∀ u ≤ (p.map instrDelta).length,
      ((Finset.range ((p.map instrDelta).length + 1)).image
        (fun t => ((p.map instrDelta).take t).sum)).min' hne'
      ≤ ((p.map instrDelta).take u).sum := by
    intro u hu
    exact Finset.min'_le _ _ (Finset.mem_image.mpr ⟨u, Finset.mem_range.mpr (by omega), rfl⟩)
  set μ := ((Finset.range ((p.map instrDelta).length + 1)).image
      (fun t => ((p.map instrDelta).take t).sum)).min' hne' with hμdef
  obtain ⟨k, hkle, hkspec, hkgt⟩ : ∃ k, k ≤ (p.map instrDelta).length ∧
      ((p.map instrDelta).take k).sum = μ ∧
      ∀ u, k < u → u ≤ (p.map instrDelta).length →
        ((p.map instrDelta).take u).sum ≠ μ := by
    refine ⟨Nat.findGreatest (fun t => ((p.map instrDelta).take t).sum = μ)
      (p.map instrDelta).length,
      @Nat.findGreatest_le (fun t => ((p.map instrDelta).take t).sum = μ) _
        (p.map instrDelta).length, ?_, ?_⟩
    · exact @Nat.findGreatest_spec t0 (fun t => ((p.map instrDelta).take t).sum = μ) _
        (p.map instrDelta).length ht0le ht0
    · exact fun u hu1 hu2 =>
        @Nat.findGreatest_is_greatest u (fun t => ((p.map instrDelta).take t).sum = μ) _
          (p.map instrDelta).length hu1 hu2
  have hμ0 : μ ≤ 0 := by
    have := hμle 0 (by omega)
    simpa using this
  have hklt : k < (p.map instrDelta).length := by
    rcases Nat.lt_or_ge k (p.map instrDelta).length with h | h
    · exact h
    · exfalso
      have hkeq : k = (p.map instrDelta).length := by omega
      rw [hkeq, List.take_of_length_le le_rfl] at hkspec
      omega
  obtain ⟨d, hdk⟩ : ∃ d, (p.map instrDelta)[k]? = some d :=
    ⟨_, List.getElem?_eq_some.mpr ⟨hklt, rfl⟩⟩
  have hdval := instrDelta_cases p d (mem_of_some_getElem hdk)
  have hstep : ((p.map instrDelta).take (k + 1)).sum = ((p.map instrDelta).take k).sum + d :=
    sum_take_succ _ k d hdk
  have hk1 : ((p.map instrDelta).take (k + 1)).sum ≠ μ := hkgt (k + 1) (by omega) (by omega)
  have hk1ge : μ ≤ ((p.map instrDelta).take (k + 1)).sum := hμle (k + 1) (by omega)
  have hd1 : d = 1 := by rcases hdval with rfl | rfl | rfl <;> omega
  subst hd1
  obtain ⟨t2, hpk⟩ := instr_of_delta_start hdk
  have hfail : fwdTarget p k = none := by
    unfold fwdTarget
    rw [seekF_eq_none ?cnt]
    · rfl
    case cnt =>
      intro m hm
      have hdt : (((p.map instrDelta).drop (k + 1)).take (m + 1)).sum
          = ((p.map instrDelta).take (k + 1 + (m + 1))).sum
            - ((p.map instrDelta).take (k + 1)).sum := by
        have hta := congrArg List.sum (List.take_add (p.map instrDelta) (k + 1) (m + 1))
        rw [List.sum_append] at hta
        omega
      rw [hdt]
      have hmm : k + 1 + (m + 1) ≤ (p.map instrDelta).length := by
        rw [List.length_drop] at hm
        omega
      have h2 := hkgt (k + 1 + (m + 1)) (by omega) hmm
      have h3 := hμle (k + 1 + (m + 1)) hmm
      omega
  have hsc := hscan k (by omega)
  unfold scanOk at hsc
  rw [hpk] at hsc
  exact hsc hfail

/-- If the whole resolution pass succeeds, the brackets were balanced. -/
lemma resolve_balanced {p p' : List Instr} (h : resolve p = some p') :
    Balanced (p.map instrDelta) := by
  apply scans_imply_balanced
  intro i hi
  exact resolveGo_scanOk (List.range p.length) p p p' rfl (fun m => Or.inl rfl) h i
    (List.mem_range.mpr hi)

/-! ### The bracket word survives normalization, rewriting and emission -/

lemma bw_cons_zero (l : List ℤ) : bw (0 :: l) = bw l := by simp [bw]

lemma bw_cons_ne (d : ℤ) (l : List ℤ) (h : d ≠ 0) : bw (d :: l) = d :: bw l := by
  simp [bw, h]

lemma bw_append (A B : List ℤ) : bw (A ++ B) = bw A ++ bw B := List.filter_append A B

lemma bw_zero_list (A : List ℤ) (h : ∀ d ∈ A, d = 0) : bw A = [] := by
  induction A with
  | nil => rfl
  | cons a A ih =>
    have ha := h a (by simp)
    subst ha
    rw [bw_cons_zero]
    exact ih (fun d hd => h d (by simp [hd]))

lemma bw_sum (ds : List ℤ) : (bw ds).sum = ds.sum := by
  induction ds with
  | nil => rfl
  | cons d rest ih =>
    by_cases hd : d = 0
    · subst hd
      rw [bw_cons_zero, ih]
      simp
    · rw [bw_cons_ne d rest hd]
      simp [ih]

lemma bw_take_ex : ∀ (ds : List ℤ) (m : ℕ), ∃ m', ((bw ds).take m).sum = (ds.take m').sum := by
  intro ds
  induction ds with
  | nil => intro m; exact ⟨0, by simp [bw]⟩
  | cons d rest ih =>
    intro m
    by_cases hd : d = 0
    · subst hd
      rw [bw_cons_zero]
      obtain ⟨m', hm'⟩ := ih m
      exact ⟨m' + 1, by simpa using hm'⟩
    · rw [bw_cons_ne d rest hd]
      cases m with
      | zero => exact ⟨0, by simp⟩
      | succ m =>
        obtain ⟨m', hm'⟩ := ih m
        exact ⟨m' + 1, by simp [hm']⟩

lemma take_bw_ex : ∀ (ds : List ℤ) (m : ℕ), ∃ m', (ds.take m).sum = ((bw ds).take m').sum := by
  intro ds
  induction ds with
  | nil => intro m; exact ⟨0, by simp⟩
  | cons d rest ih =>
    intro m
    cases m with
    | zero => exact ⟨0, by simp⟩
    | succ m =>
      by_cases hd : d = 0
      · subst hd
        obtain ⟨m', hm'⟩ := ih m
        rw [bw_cons_zero]
        exact ⟨m', by simpa using hm'⟩
      · obtain ⟨m', hm'⟩ := ih m
        rw [bw_cons_ne d rest hd]
        exact ⟨m' + 1, by simp [hm']⟩

/-- Balance only depends on the nonzero deltas. -/
lemma balanced_bw (ds : List ℤ) : Balanced ds ↔ Balanced (bw ds) := by
  unfold Balanced
  rw [bw_sum]
  constructor
  · rintro ⟨h1, h2⟩
    refine ⟨fun m => ?_, h2⟩
    obtain ⟨m', hm'⟩ := bw_take_ex ds m
    rw [hm']
    exact h1 m'
  · rintro ⟨h1, h2⟩
    refine ⟨fun m => ?_, h2⟩
    obtain ⟨m', hm'⟩ := take_bw_ex ds m
    rw [hm']
    exact h1 m'

lemma charDelta_of_move {c : Char} (h : isMove c = true) : charDelta c = 0 := by
  simp only [isMove, Bool.or_eq_true, decide_eq_true_eq] at h
  rcases h with rfl | rfl <;> rfl

lemma charDelta_of_arith {c : Char} (h : isArith c = true) : charDelta c = 0 := by
  simp only [isArith, Bool.or_eq_true, decide_eq_true_eq] at h
  rcases h with rfl | rfl <;> rfl

lemma consFst_fst (i : Instr) (pr : List Instr × EmitEnd) : (consFst i pr).1 = i :: pr.1 := by
  cases pr
  rfl

lemma consFst_snd (i : Instr) (pr : List Instr × EmitEnd) : (consFst i pr).2 = pr.2 := by
  cases pr
  rfl

/-- When pass 1 consumes the whole text, the emitted instructions carry
exactly the bracket word of the text. -/
lemma emit_bw : ∀ (n : ℕ) (l : List Char), l.length ≤ n → (emit l).2 = EmitEnd.done →
    bw ((emit l).1.map instrDelta) = bw (l.map charDelta) := by
  intro n
  induction n with
  | zero =>
    intro l hl _
    obtain rfl : l = [] := List.length_eq_zero.mp (Nat.le_zero.mp hl)
    rfl
  | succ n ih =>
    intro l hl hdone
    cases l with
    | nil => rfl
    | cons c rest =>
      have hlrest : rest.length ≤ n := by simpa using hl
      rw [emit_cons] at hdone ⊢
      by_cases hmv : isMove c = true
      · rw [if_pos hmv] at hdone ⊢
        have hdw := le_trans (length_dropWhile_le isMove rest) hlrest
        have hz : ∀ d ∈ (rest.takeWhile isMove).map charDelta, d = 0 := by
          intro d hd
          obtain ⟨x, hx, rfl⟩ := List.mem_map.mp hd
          exact charDelta_of_move (List.mem_takeWhile_imp hx)
        have hrw : bw (rest.map charDelta) = bw ((rest.dropWhile isMove).map charDelta) := by
          conv_lhs => rw [← List.takeWhile_append_dropWhile isMove rest]
          rw [List.map_append, bw_append, bw_zero_list _ hz, List.nil_append]
        by_cases hv1 : 0 < moveDelta c + ((rest.takeWhile isMove).map moveDelta).sum
        · rw [if_pos hv1] at hdone ⊢
          rw [consFst_snd] at hdone
          rw [consFst_fst, List.map_cons]
          show bw ((0 : ℤ) :: _) = _
          rw [bw_cons_zero, ih (rest.dropWhile isMove) hdw hdone, List.map_cons,
            charDelta_of_move hmv, bw_cons_zero]
          exact hrw.symm
        · rw [if_neg hv1] at hdone ⊢
          by_cases hv2 : moveDelta c + ((rest.takeWhile isMove).map moveDelta).sum < 0
          · rw [if_pos hv2] at hdone ⊢
            rw [consFst_snd] at hdone
            rw [consFst_fst, List.map_cons]
            show bw ((0 : ℤ) :: _) = _
            rw [bw_cons_zero, ih (rest.dropWhile isMove) hdw hdone, List.map_cons,
              charDelta_of_move hmv, bw_cons_zero]
            exact hrw.symm
          · rw [if_neg hv2] at hdone
            exact EmitEnd.noConfusion hdone
      · rw [if_neg hmv] at hdone ⊢
        by_cases har : isArith c = true
        · rw [if_pos har] at hdone ⊢
          have hdw := le_trans (length_dropWhile_le isArith rest) hlrest
          have hz : ∀ d ∈ (rest.takeWhile isArith).map charDelta, d = 0 := by
            intro d hd
            obtain ⟨x, hx, rfl⟩ := List.mem_map.mp hd
            exact charDelta_of_arith (List.mem_takeWhile_imp hx)
          have hrw : bw (rest.map charDelta) = bw ((rest.dropWhile isArith).map charDelta) := by
            conv_lhs => rw [← List.takeWhile_append_dropWhile isArith rest]
            rw [List.map_append, bw_append, bw_zero_list _ hz, List.nil_append]
          by_cases hv1 : 0 < arithDelta c + ((rest.takeWhile isArith).map arithDelta).sum
          · rw [if_pos hv1] at hdone ⊢
            rw [consFst_snd] at hdone
            rw [consFst_fst, List.map_cons]
            show bw ((0 : ℤ) :: _) = _
            rw [bw_cons_zero, ih (rest.dropWhile isArith) hdw hdone, List.map_cons,
              charDelta_of_arith har, bw_cons_zero]
            exact hrw.symm
          · rw [if_neg hv1] at hdone ⊢
            by_cases hv2 : arithDelta c + ((rest.takeWhile isArith).map arithDelta).sum < 0
            · rw [if_pos hv2] at hdone ⊢
              rw [consFst_snd] at hdone
              rw [consFst_fst, List.map_cons]
              show bw ((0 : ℤ) :: _) = _
              rw [bw_cons_zero, ih (rest.dropWhile isArith) hdw hdone, List.map_cons,
                charDelta_of_arith har, bw_cons_zero]
              exact hrw.symm
            · rw [if_neg hv2] at hdone
              exact EmitEnd.noConfusion hdone
        · rw [if_neg har] at hdone ⊢
          by_cases h1 : c = '.'
          · subst h1
            rw [if_pos rfl] at hdone ⊢
            rw [consFst_snd] at hdone
            rw [consFst_fst, List.map_cons, List.map_cons]
            show bw ((0 : ℤ) :: _) = bw ((0 : ℤ) :: _)
            rw [bw_cons_zero, bw_cons_zero]
            exact ih rest hlrest hdone
          · rw [if_neg h1] at hdone ⊢
            by_cases h2 : c = ','
            · subst h2
              rw [if_pos rfl] at hdone ⊢
              rw [consFst_snd] at hdone
              rw [consFst_fst, List.map_cons, List.map_cons]
              show bw ((0 : ℤ) :: _) = bw ((0 : ℤ) :: _)
              rw [bw_cons_zero, bw_cons_zero]
              exact ih rest hlrest hdone
            · rw [if_neg h2] at hdone ⊢
              by_cases h3 : c = '['
              · subst h3
                rw [if_pos rfl] at hdone ⊢
                rw [consFst_snd] at hdone
                rw [consFst_fst, List.map_cons, List.map_cons]
                show bw ((1 : ℤ) :: _) = bw ((1 : ℤ) :: _)
                rw [bw_cons_ne 1 _ one_ne_zero, bw_cons_ne 1 _ one_ne_zero]
                exact congrArg (List.cons 1) (ih rest hlrest hdone)
              · rw [if_neg h3] at hdone ⊢
                by_cases h4 : c = ']'
                · subst h4
                  rw [if_pos rfl] at hdone ⊢
                  rw [consFst_snd] at hdone
                  rw [consFst_fst, List.map_cons, List.map_cons]
                  show bw ((-1 : ℤ) :: _) = bw ((-1 : ℤ) :: _)
                  rw [bw_cons_ne (-1) _ (by decide), bw_cons_ne (-1) _ (by decide)]
                  exact congrArg (List.cons (-1)) (ih rest hlrest hdone)
                · rw [if_neg h4] at hdone ⊢
                  by_cases h5 : c = 'c'
                  · subst h5
                    rw [if_pos rfl] at hdone ⊢
                    rw [consFst_snd] at hdone
                    rw [consFst_fst, List.map_cons, List.map_cons]
                    show bw ((0 : ℤ) :: _) = bw ((0 : ℤ) :: _)
                    rw [bw_cons_zero, bw_cons_zero]
                    exact ih rest hlrest hdone
                  · rw [if_neg h5] at hdone ⊢
                    by_cases h6 : c = 'l'
                    · subst h6
                      rw [if_pos rfl] at hdone ⊢
                      rw [consFst_snd] at hdone
                      rw [consFst_fst, List.map_cons, List.map_cons]
                      show bw ((0 : ℤ) :: _) = bw ((0 : ℤ) :: _)
                      rw [bw_cons_zero, bw_cons_zero]
                      exact ih rest hlrest hdone
                    · rw [if_neg h6] at hdone ⊢
                      by_cases h7 : c = 'r'
                      · subst h7
                        rw [if_pos rfl] at hdone ⊢
                        rw [consFst_snd] at hdone
                        rw [consFst_fst, List.map_cons, List.map_cons]
                        show bw ((0 : ℤ) :: _) = bw ((0 : ℤ) :: _)
                        rw [bw_cons_zero, bw_cons_zero]
                        exact ih rest hlrest hdone
                      · rw [if_neg h7] at hdone
                        exact EmitEnd.noConfusion hdone

lemma replace3_cons3 (mid rep a b c : Char) (rest : List Char) :
    replace3 mid rep (a :: b :: c :: rest) =
      if a = '[' ∧ b = mid ∧ c = ']' then rep :: replace3 mid rep rest
      else a :: replace3 mid rep (b :: c :: rest) := rfl

/-- Normalization does not touch the bracket word. -/
lemma minify_bw (l : List Char) : bw ((minify l).map charDelta) = bw (l.map charDelta) := by
  unfold minify
  induction l with
  | nil => rfl
  | cons c rest ih =>
    rw [List.filter_cons]
    by_cases hc : isInstrChar c = true
    · rw [if_pos hc, List.map_cons, List.map_cons]
      by_cases hz : charDelta c = 0
      · rw [hz, bw_cons_zero, bw_cons_zero]
        exact ih
      · rw [bw_cons_ne _ _ hz, bw_cons_ne _ _ hz, ih]
    · rw [if_neg hc, List.map_cons]
      have hz : charDelta c = 0 := by
        simp only [isInstrChar, Bool.or_eq_true, decide_eq_true_eq, not_or,
          Bool.not_eq_true] at hc
        unfold charDelta
        rw [if_neg (by tauto), if_neg (by tauto)]
      rw [hz, bw_cons_zero]
      exact ih

/-- Splitting balance over an appended prefix. -/
lemma bal_append_iff (P X : List ℤ) :
    Balanced (P ++ X) ↔
      ((∀ m, 0 ≤ (P.take m).sum) ∧ (∀ k, 0 ≤ P.sum + (X.take k).sum)
        ∧ P.sum + X.sum = 0) := by
  unfold Balanced
  constructor
  · rintro ⟨h1, h2⟩
    refine ⟨fun m => ?_, fun k => ?_, by rw [← List.sum_append]; exact h2⟩
    · by_cases hm : m ≤ P.length
      · have := h1 m
        rwa [List.take_append_of_le_length hm] at this
      · rw [List.take_of_length_le (by omega)]
        have := h1 P.length
        rwa [List.take_append_of_le_length le_rfl, List.take_length] at this
    · have := h1 (P.length + k)
      rwa [List.take_append, List.sum_append] at this
  · rintro ⟨h1, h2, h3⟩
    refine ⟨fun m => ?_, by rw [List.sum_append]; exact h3⟩
    by_cases hm : m ≤ P.length
    · rw [List.take_append_of_le_length hm]
      exact h1 m
    · have hm' : m = P.length + (m - P.length) := by omega
      rw [hm', List.take_append, List.sum_append]
      exact h2 _

/-- Inserting or removing a zero delta anywhere preserves balance. -/
lemma bal_insert_zero (P T : List ℤ) :
    Balanced (P ++ 0 :: T) ↔ Balanced (P ++ T) := by
  rw [bal_append_iff, bal_append_iff]
  constructor
  · rintro ⟨h1, h2, h3⟩
    refine ⟨h1, fun k => ?_, by simpa using h3⟩
    have := h2 (k + 1)
    simpa using this
  · rintro ⟨h1, h2, h3⟩
    refine ⟨h1, fun k => ?_, by simpa using h3⟩
    cases k with
    | zero => simpa using h2 0
    | succ k => simpa using h2 k

/-- Inserting or removing a matched `[ ]` pair (with a zero delta between)
preserves balance. -/
lemma bal_insert_pair (P T : List ℤ) :
    Balanced (P ++ 1 :: 0 :: -1 :: T) ↔ Balanced (P ++ T) := by
  rw [bal_append_iff, bal_append_iff]
  constructor
  · rintro ⟨h1, h2, h3⟩
    refine ⟨h1, fun k => ?_, ?_⟩
    · have := h2 (k + 3)
      simp only [List.take_succ_cons, List.sum_cons] at this
      omega
    · simp only [List.sum_cons] at h3
      omega
  · rintro ⟨h1, h2, h3⟩
    have h0 : 0 ≤ P.sum := by simpa using h2 0
    refine ⟨h1, fun k => ?_, ?_⟩
    · match k with
      | 0 => simpa using h0
      | 1 =>
        simp only [List.take_succ_cons, List.take_zero, List.sum_cons, List.sum_nil]
        omega
      | 2 =>
        simp only [List.take_succ_cons, List.take_zero, List.sum_cons, List.sum_nil]
        omega
      | (k + 3) =>
        have := h2 k
        simp only [List.take_succ_cons, List.sum_cons]
        omega
    · simp only [List.sum_cons]
      omega

/-- One textual replacement pass preserves balance of the bracket deltas,
in any prefix context. -/
lemma replace3_balance (mid rep : Char) (hmid : charDelta mid = 0)
    (hrep : charDelta rep = 0) :
    ∀ (n : ℕ) (l : List Char), l.length ≤ n → ∀ P : List ℤ,
      (Balanced (P ++ (replace3 mid rep l).map charDelta)
        ↔ Balanced (P ++ l.map charDelta)) := by
  intro n
  induction n with
  | zero =>
    intro l hl P
    obtain rfl : l = [] := List.length_eq_zero.mp (Nat.le_zero.mp hl)
    exact Iff.rfl
  | succ n ih =>
    intro l hl P
    match l with
    | [] => exact Iff.rfl
    | [a] => exact Iff.rfl
    | [a, b] => exact Iff.rfl
    | a :: b :: c :: rest =>
      rw [replace3_cons3]
      by_cases hm : a = '[' ∧ b = mid ∧ c = ']'
      · rw [if_pos hm]
        obtain ⟨rfl, hb, rfl⟩ := hm
        have hcb : charDelta b = 0 := by rw [hb]; exact hmid
        calc Balanced (P ++ (rep :: replace3 mid rep rest).map charDelta)
            ↔ Balanced (P ++ 0 :: (replace3 mid rep rest).map charDelta) := by
              rw [List.map_cons, hrep]
          _ ↔ Balanced (P ++ (replace3 mid rep rest).map charDelta) :=
              bal_insert_zero P _
          _ ↔ Balanced (P ++ rest.map charDelta) := ih rest (by simp at hl; omega) P
          _ ↔ Balanced (P ++ 1 :: 0 :: -1 :: rest.map charDelta) :=
              (bal_insert_pair P _).symm
          _ ↔ Balanced (P ++ ('[' :: b :: ']' :: rest).map charDelta) := by
              rw [List.map_cons, List.map_cons, List.map_cons, hcb]
              exact Iff.rfl
      · rw [if_neg hm]
        have hstep := ih (b :: c :: rest) (by simp at hl ⊢; omega) (P ++ [charDelta a])
        rw [List.append_assoc, List.append_assoc] at hstep
        rw [List.map_cons, List.map_cons]
        exact hstep

/-- The whole Pattern Rewriter preserves balance of the bracket word. -/
lemma optimize_balanced (l : List Char) :
    Balanced ((optimize l).map charDelta) ↔ Balanced (l.map charDelta) := by
  have hw : ∀ (mid rep : Char), charDelta mid = 0 → charDelta rep = 0 →
      ∀ t : List Char,
        (Balanced ((replace3 mid rep t).map charDelta) ↔ Balanced (t.map charDelta)) := by
    intro mid rep h1 h2 t
    have := replace3_balance mid rep h1 h2 t.length t le_rfl []
    simpa using this
  unfold optimize
  rw [hw '>' 'r' (by rfl) (by rfl), hw '<' 'l' (by rfl) (by rfl),
    hw '+' 'c' (by rfl) (by rfl), hw '-' 'c' (by rfl) (by rfl)]

/-! ### Claim theorems: C2, C5, C8, C10 -/

/-- C2: evaluating the canonical 106-character Hello World program through
the public entry point with live output disabled returns exactly the
string "Hello World!\n" (its UTF-8 bytes, which for this ASCII output are
the code points). -/
theorem evaluate_hello_world :
    evaluate helloSrc false 2000 = some (strBytes "Hello World!\n") := by decide

/-- C5: the interpretation loop stops exactly when the program counter
equals the program length; otherwise it executes the instruction at the
counter and continues.  After any successful step the new counter is
`nextPc`: the target of the bracket plus one when a jump is taken (a
`loopStart` jumps iff the cell under the cursor is zero, a `loopEnd` iff
it is nonzero), and the old counter plus one in every other case. -/
theorem step_pc_semantics (prog : List Instr) (live : Bool) (fuel : ℕ) (s s' : MState) :
    (s.pc = prog.length → runM prog live (fuel + 1) s = some s) ∧
    (s.pc ≠ prog.length →
      runM prog live (fuel + 1) s = (step prog live s).bind (runM prog live fuel)) ∧
    (step prog live s = some s' → s'.pc = nextPc prog s) := by
  refine ⟨fun h => by simp [runM, h], fun h => by simp [runM, h], fun h => ?_⟩
  have hnext : nextPc prog s =
      match prog.get? s.pc with
      | some (.loopStart t) => (if s.mem s.ptr = 0 then t else s.pc) + 1
      | some (.loopEnd t) => (if s.mem s.ptr = 0 then s.pc else t) + 1
      | _ => s.pc + 1 := rfl
  rw [hnext]
  simp only [step] at h
  cases hg : prog.get? s.pc with
  | none => rw [hg] at h; exact Option.noConfusion h
  | some inst =>
    rw [hg] at h
    cases inst with
    | pointerLeft n =>
      obtain rfl := Option.some.inj h
      rfl
    | pointerRight n =>
      replace h : (if n ≤ s.ptr then
          some { s with pc := s.pc + 1, ptr := s.ptr - n } else none) = some s' := h
      split at h
      · obtain rfl := Option.some.inj h; rfl
      · exact Option.noConfusion h
    | add n =>
      replace h : (if s.ptr < MEMSZ then
          some { s with pc := s.pc + 1,
                        mem := upd s.mem s.ptr ((s.mem s.ptr + n) % 256) } else none) = some s' := h
      split at h
      · obtain rfl := Option.some.inj h; rfl
      · exact Option.noConfusion h
    | sub n =>
      replace h : (if s.ptr < MEMSZ then
          some { s with pc := s.pc + 1,
                        mem := upd s.mem s.ptr
                          ((s.mem s.ptr + (256 - n % 256)) % 256) } else none) = some s' := h
      split at h
      · obtain rfl := Option.some.inj h; rfl
      · exact Option.noConfusion h
    | putChar =>
      replace h : (if s.ptr < MEMSZ then
          some { s with pc := s.pc + 1, out := s.out ++ [s.mem s.ptr],
                        sink := if live then s.sink ++ [s.mem s.ptr] else s.sink }
          else none) = some s' := h
      split at h
      · obtain rfl := Option.some.inj h; rfl
      · exact Option.noConfusion h
    | getChar => exact Option.noConfusion h
    | loopStart t =>
      replace h : (if s.ptr < MEMSZ then
          some { s with pc := (if s.mem s.ptr = 0 then t else s.pc) + 1 } else none) = some s' := h
      split at h
      · obtain rfl := Option.some.inj h; rfl
      · exact Option.noConfusion h
    | loopEnd t =>
      replace h : (if s.ptr < MEMSZ then
          some { s with pc := (if s.mem s.ptr = 0 then s.pc else t) + 1 } else none) = some s' := h
      split at h
      · obtain rfl := Option.some.inj h; rfl
      · exact Option.noConfusion h
    | clear =>
      replace h : (if s.ptr < MEMSZ then
          some { s with pc := s.pc + 1, mem := upd s.mem s.ptr 0 } else none) = some s' := h
      split at h
      · obtain rfl := Option.some.inj h; rfl
      · exact Option.noConfusion h
    | scanRight =>
      replace h : (scanR s.mem s.ptr).map
          (fun q => { s with pc := s.pc + 1, ptr := q }) = some s' := h
      rcases Option.map_eq_some'.mp h with ⟨q, _, rfl⟩
      rfl
    | scanLeft =>
      replace h : (scanL s.mem s.ptr).map
          (fun q => { s with pc := s.pc + 1, ptr := q }) = some s' := h
      rcases Option.map_eq_some'.mp h with ⟨q, _, rfl⟩
      rfl

/-- Witness for C5 at a concrete program: the loop returns the state
unchanged at `pc = length`, and a `loopStart` over a zero cell jumps to
its target 1 and then advances to 2. -/
theorem step_pc_semantics_w :
    runM [Instr.loopStart 1] false 1 ⟨1, 0, fun _ => 0, [], []⟩ =
      some ⟨1, 0, fun _ => 0, [], []⟩ ∧
    (⟨2, 0, fun _ => 0, [], []⟩ : MState).pc =
      nextPc [Instr.loopStart 1] ⟨0, 0, fun _ => 0, [], []⟩ := by
  constructor
  · exact (step_pc_semantics [Instr.loopStart 1] false 0
      ⟨1, 0, fun _ => 0, [], []⟩ ⟨1, 0, fun _ => 0, [], []⟩).1 rfl
  · exact (step_pc_semantics [Instr.loopStart 1] false 0
      ⟨0, 0, fun _ => 0, [], []⟩ ⟨2, 0, fun _ => 0, [], []⟩).2.2 rfl

lemma emit_run_collapse :
    (∀ (run rest : List Char), run ≠ [] → (∀ c ∈ run, isMove c = true) →
      (∀ d, rest.head? = some d → isMove d = false) →
      emit (run ++ rest) =
        if run.count '<' < run.count '>' then
          consFst (.pointerLeft (run.count '>' - run.count '<')) (emit rest)
        else if run.count '>' < run.count '<' then
          consFst (.pointerRight (run.count '<' - run.count '>')) (emit rest)
        else ([], .halted)) ∧
    (∀ (run rest : List Char), run ≠ [] → (∀ c ∈ run, isArith c = true) →
      (∀ d, rest.head? = some d → isArith d = false) →
      emit (run ++ rest) =
        if run.count '-' < run.count '+' then
          consFst (.add ((run.count '+' - run.count '-') % 256)) (emit rest)
        else if run.count '+' < run.count '-' then
          consFst (.sub ((run.count '-' - run.count '+') % 256)) (emit rest)
        else ([], .halted)) := by
  constructor
  · intro run rest hne hrun hrest
    rw [emit_move_run run rest hne hrun hrest, sum_moveDelta run hrun]
    by_cases h1 : run.count '<' < run.count '>'
    · rw [if_pos (by omega : (0 : ℤ) < (run.count '>' : ℤ) - (run.count '<' : ℤ)), if_pos h1,
        Int.toNat_sub]
    · by_cases h2 : run.count '>' < run.count '<'
      · rw [if_neg (by omega), if_pos (by omega), if_neg h1, if_pos h2, neg_sub, Int.toNat_sub]
      · rw [if_neg (by omega), if_neg (by omega), if_neg h1, if_neg h2]
  · intro run rest hne hrun hrest
    rw [emit_arith_run run rest hne hrun hrest, sum_arithDelta run hrun]
    by_cases h1 : run.count '-' < run.count '+'
    · rw [if_pos (by omega : (0 : ℤ) < (run.count '+' : ℤ) - (run.count '-' : ℤ)), if_pos h1,
        Int.toNat_sub]
    · by_cases h2 : run.count '+' < run.count '-'
      · rw [if_neg (by omega), if_pos (by omega), if_neg h1, if_pos h2, neg_sub, Int.toNat_sub]
      · rw [if_neg (by omega), if_neg (by omega), if_neg h1, if_neg h2]

/-- C1 (amended): pass 1 collapses every maximal contiguous movement run of
`k` move-right and `m` move-left characters into one relative-move
instruction of net magnitude `|k - m|` in the majority direction (the
instruction carrying the majority of '>' is the `pointerLeft` variant and
vice versa), continuing with the remainder of the text; the identical
policy applies to arithmetic runs with the magnitude truncated to 8 bits.
However, when `k = m` the compiler does not merely skip the run: the
`break` leaves the whole compilation loop, so no instruction is emitted
for the remainder of the text either (`([], .halted)`). -/
theorem compile_run_collapse :
    (∀ (run rest : List Char), run ≠ [] → (∀ c ∈ run, isMove c = true) →
      (∀ d, rest.head? = some d → isMove d = false) →
      emit (run ++ rest) =
        if run.count '<' < run.count '>' then
          consFst (.pointerLeft (run.count '>' - run.count '<')) (emit rest)
        else if run.count '>' < run.count '<' then
          consFst (.pointerRight (run.count '<' - run.count '>')) (emit rest)
        else ([], .halted)) ∧
    (∀ (run rest : List Char), run ≠ [] → (∀ c ∈ run, isArith c = true) →
      (∀ d, rest.head? = some d → isArith d = false) →
      emit (run ++ rest) =
        if run.count '-' < run.count '+' then
          consFst (.add ((run.count '+' - run.count '-') % 256)) (emit rest)
        else if run.count '+' < run.count '-' then
          consFst (.sub ((run.count '-' - run.count '+') % 256)) (emit rest)
        else ([], .halted)) :=
  emit_run_collapse

/-- Counterexample to C1 as stated: in "><+" the movement run "><" cancels
to net zero, and the `break` leaves the compilation loop, so the
instruction for the remaining '+' is not emitted at all (compiling "+"
alone yields `add 1`). -/
theorem compile_run_collapse_cex :
    emit ['>', '<', '+'] = ([], .halted) ∧ emit ['+'] = ([Instr.add 1], .done) := by decide

/-- Witness for C1 at concrete runs. -/
theorem compile_run_collapse_w :
    emit (['>', '>', '<'] ++ ['+']) = consFst (.pointerLeft 1) (emit ['+']) ∧
    emit (['+', '-', '-'] ++ []) = consFst (.sub 1) (emit []) := by
  constructor
  · rw [compile_run_collapse.1 ['>', '>', '<'] ['+'] (by decide) (by decide)
      (fun d hd => by simp at hd; subst hd; rfl)]
    decide
  · rw [compile_run_collapse.2 ['+', '-', '-'] [] (by decide) (by decide)
      (fun d hd => by simp at hd)]
    decide

/-- C3: a maximal movement run with nonzero net sum `s` compiles to one
relative-move instruction whose execution changes the cursor by exactly
`s` (rightward for positive `s`), even though the variants are populated
with directions swapped relative to their names: a majority of '>'
produces the `pointerLeft` variant, which the interpreter executes as
cursor increase, and symmetrically for '<'. -/
theorem move_run_net_cursor (run : List Char) (live : Bool) (ptr : ℕ)
    (mem : ℕ → ℕ) (out sink : List ℕ)
    (hne : run ≠ []) (hrun : ∀ c ∈ run, isMove c = true)
    (hkm : run.count '>' ≠ run.count '<')
    (hroom : run.count '<' - run.count '>' ≤ ptr) :
    ((run.count '<' < run.count '>' →
      (emit run).1 = [.pointerLeft (run.count '>' - run.count '<')]) ∧
     (run.count '>' < run.count '<' →
      (emit run).1 = [.pointerRight (run.count '<' - run.count '>')])) ∧
    ∃ s', step (emit run).1 live ⟨0, ptr, mem, out, sink⟩ = some s' ∧
      (s'.ptr : ℤ) = (ptr : ℤ) + ((run.count '>' : ℤ) - (run.count '<' : ℤ)) ∧
      s'.pc = 1 ∧ s'.mem = mem ∧ s'.out = out := by
  have h := emit_run_collapse.1 run [] hne hrun (fun d hd => by simp at hd)
  rw [List.append_nil] at h
  by_cases h1 : run.count '<' < run.count '>'
  · rw [if_pos h1] at h
    have hemit : (emit run).1 = [Instr.pointerLeft (run.count '>' - run.count '<')] := by
      rw [h]; rfl
    refine ⟨⟨fun _ => hemit, fun h2 => absurd h2 (by omega)⟩,
      ⟨1, ptr + (run.count '>' - run.count '<'), mem, out, sink⟩, ?_, ?_, rfl, rfl, rfl⟩
    · rw [hemit]; rfl
    · have : run.count '<' ≤ run.count '>' := h1.le
      push_cast [Nat.cast_sub this]
      omega
  · have h2 : run.count '>' < run.count '<' := by omega
    rw [if_neg h1, if_pos h2] at h
    have hemit : (emit run).1 = [Instr.pointerRight (run.count '<' - run.count '>')] := by
      rw [h]; rfl
    refine ⟨⟨fun hc => absurd hc (by omega), fun _ => hemit⟩,
      ⟨1, ptr - (run.count '<' - run.count '>'), mem, out, sink⟩, ?_, ?_, rfl, rfl, rfl⟩
    · rw [hemit]
      show (if run.count '<' - run.count '>' ≤ ptr then
        some (⟨0 + 1, ptr - (run.count '<' - run.count '>'), mem, out, sink⟩ : MState)
        else none) = _
      rw [if_pos hroom]
    · show ((ptr - (run.count '<' - run.count '>') : ℕ) : ℤ) =
        (ptr : ℤ) + ((run.count '>' : ℤ) - (run.count '<' : ℤ))
      omega

/-- Witness for C3: "<<>" has net sum -1 and moves the cursor from 5 to 4. -/
theorem move_run_net_cursor_w :
    ∃ s', step (emit ['<', '<', '>']).1 false ⟨0, 5, fun _ => 0, [], []⟩ = some s' ∧
      (s'.ptr : ℤ) = (5 : ℤ) + ((1 : ℤ) - (2 : ℤ)) ∧
      s'.pc = 1 ∧ s'.mem = (fun _ => 0) ∧ s'.out = [] :=
  (move_run_net_cursor ['<', '<', '>'] false 5 (fun _ => 0) [] []
    (by decide) (by decide) (by decide) (by decide)).2

lemma upd_same (m : ℕ → ℕ) (i v : ℕ) : upd m i v i = v := by simp [upd]

/-- C6: Add/Sub execute with 8-bit wraparound (255 + 1 = 0, 0 - 1 = 255
through the interpreter), executing `add n`/`sub n` updates the cell under
the cursor modulo 256, and the compile-time collapse of an arithmetic run
of `a` '+' and `b` '-' characters combined with wraparound execution
yields exactly (cell + a - b) mod 256 for runs of any length — the
compile-time truncation of the magnitude to 8 bits is harmless. -/
theorem arith_wraparound :
    ((step [Instr.add 1] false ⟨0, 0, fun _ => 255, [], []⟩).map (fun s => s.mem 0)
      = some 0) ∧
    ((step [Instr.sub 1] false ⟨0, 0, fun _ => 0, [], []⟩).map (fun s => s.mem 0)
      = some 255) ∧
    (∀ (prog : List Instr) (live : Bool) (s : MState) (n : ℕ),
      s.ptr < MEMSZ →
      (prog.get? s.pc = some (.add n) →
        step prog live s =
          some { s with pc := s.pc + 1, mem := upd s.mem s.ptr ((s.mem s.ptr + n) % 256) }) ∧
      (prog.get? s.pc = some (.sub n) →
        step prog live s =
          some { s with pc := s.pc + 1,
                        mem := upd s.mem s.ptr ((s.mem s.ptr + (256 - n % 256)) % 256) })) ∧
    (∀ (run : List Char) (live : Bool) (ptr : ℕ) (mem : ℕ → ℕ) (out sink : List ℕ),
      run ≠ [] → (∀ c ∈ run, isArith c = true) →
      run.count '+' ≠ run.count '-' → ptr < MEMSZ → mem ptr < 256 →
      ∃ s', step (emit run).1 live ⟨0, ptr, mem, out, sink⟩ = some s' ∧
        ((s'.mem ptr : ℤ) =
          ((mem ptr : ℤ) + (run.count '+' : ℤ) - (run.count '-' : ℤ)) % 256) ∧
        s'.pc = 1 ∧ s'.ptr = ptr ∧ s'.out = out) := by
  refine ⟨by decide, by decide, ?_, ?_⟩
  · intro prog live s n hlt
    constructor
    · intro hg
      simp only [step]
      rw [hg]
      show (if s.ptr < MEMSZ then
        some { s with pc := s.pc + 1, mem := upd s.mem s.ptr ((s.mem s.ptr + n) % 256) }
        else none) = _
      rw [if_pos hlt]
    · intro hg
      simp only [step]
      rw [hg]
      show (if s.ptr < MEMSZ then
        some { s with pc := s.pc + 1,
                      mem := upd s.mem s.ptr ((s.mem s.ptr + (256 - n % 256)) % 256) }
        else none) = _
      rw [if_pos hlt]
  · intro run live ptr mem out sink hne hrun hab hptr hcell
    have h := emit_run_collapse.2 run [] hne hrun (fun d hd => by simp at hd)
    rw [List.append_nil] at h
    by_cases h1 : run.count '-' < run.count '+'
    · rw [if_pos h1] at h
      have hemit : (emit run).1 = [Instr.add ((run.count '+' - run.count '-') % 256)] := by
        rw [h]; rfl
      refine ⟨⟨1, ptr,
        upd mem ptr ((mem ptr + (run.count '+' - run.count '-') % 256) % 256), out, sink⟩,
        ?_, ?_, rfl, rfl, rfl⟩
      · rw [hemit]
        show (if ptr < MEMSZ then
          some (⟨0 + 1, ptr,
            upd mem ptr ((mem ptr + (run.count '+' - run.count '-') % 256) % 256),
            out, sink⟩ : MState) else none) = _
        rw [if_pos hptr]
      · show ((upd mem ptr ((mem ptr + (run.count '+' - run.count '-') % 256) % 256) ptr : ℕ)
          : ℤ) = _
        rw [upd_same]
        omega
    · have h2 : run.count '+' < run.count '-' := by omega
      rw [if_neg h1, if_pos h2] at h
      have hemit : (emit run).1 = [Instr.sub ((run.count '-' - run.count '+') % 256)] := by
        rw [h]; rfl
      refine ⟨⟨1, ptr,
        upd mem ptr
          ((mem ptr + (256 - (run.count '-' - run.count '+') % 256 % 256)) % 256), out, sink⟩,
        ?_, ?_, rfl, rfl, rfl⟩
      · rw [hemit]
        show (if ptr < MEMSZ then
          some (⟨0 + 1, ptr,
            upd mem ptr
              ((mem ptr + (256 - (run.count '-' - run.count '+') % 256 % 256)) % 256),
            out, sink⟩ : MState) else none) = _
        rw [if_pos hptr]
      · show ((upd mem ptr
          ((mem ptr + (256 - (run.count '-' - run.count '+') % 256 % 256)) % 256) ptr : ℕ)
          : ℤ) = _
        rw [upd_same]
        omega

/-- Witness for C6: "++-" over a zero cell leaves (0 + 2 - 1) mod 256 = 1. -/
theorem arith_wraparound_w :
    ∃ s', step (emit ['+', '+', '-']).1 false ⟨0, 0, fun _ => 0, [], []⟩ = some s' ∧
      ((s'.mem 0 : ℤ) = ((0 : ℤ) + (2 : ℤ) - (1 : ℤ)) % 256) ∧
      s'.pc = 1 ∧ s'.ptr = 0 ∧ s'.out = [] :=
  arith_wraparound.2.2.2 ['+', '+', '-'] false 0 (fun _ => 0) [] []
    (by decide) (by decide) (by decide) (by decide) (by decide)

/-! ### Occurrences of three-character idioms -/

/-- The head of the rewritten text is either nothing, the replacement
character, or the original head. -/
lemma replace3_head (mid rep : Char) (l : List Char) :
    replace3 mid rep l = [] ∨ (∃ t, replace3 mid rep l = rep :: t) ∨
    (∃ c t, replace3 mid rep l = c :: t ∧ l.head? = some c) := by
  match l with
  | [] => exact Or.inl rfl
  | [a] => exact Or.inr (Or.inr ⟨a, [], rfl, rfl⟩)
  | [a, b] => exact Or.inr (Or.inr ⟨a, [b], rfl, rfl⟩)
  | a :: b :: c :: rest =>
    rw [replace3_cons3]
    by_cases h : a = '[' ∧ b = mid ∧ c = ']'
    · rw [if_pos h]; exact Or.inr (Or.inl ⟨_, rfl⟩)
    · rw [if_neg h]; exact Or.inr (Or.inr ⟨a, _, rfl, rfl⟩)

lemma occurs_cons_tail {q : List Char} {x : Char} {t : List Char}
    (h : occurs q (x :: t) = false) : occurs q t = false := by
  simp only [occurs, Bool.or_eq_false_iff] at h
  exact h.2

lemma pref_close_of_head {t : List Char} {mid rep : Char} (h3 : rep ≠ ']')
    (hd : ∀ c, t.head? = some c → c ≠ ']') :
    prefOf [']'] (replace3 mid rep t) = false := by
  rcases replace3_head mid rep t with hx | ⟨u, hx⟩ | ⟨c0, u, hx, hc0⟩
  · rw [hx]; rfl
  · rw [hx]; simp [prefOf, Ne.symm h3]
  · rw [hx]; simp [prefOf, Ne.symm (hd c0 hc0)]

/-- After `replace3 mid rep`, the pattern `[mid]` does not occur. -/
lemma replace3_not_self (mid rep : Char) (h1 : rep ≠ '[') (h2 : rep ≠ mid) (h3 : rep ≠ ']') :
    ∀ (n : ℕ) (l : List Char), l.length ≤ n →
      occurs ['[', mid, ']'] (replace3 mid rep l) = false := by
  intro n
  induction n with
  | zero =>
    intro l hl
    obtain rfl : l = [] := List.length_eq_zero.mp (Nat.le_zero.mp hl)
    rfl
  | succ n ih =>
    intro l hl
    match l with
    | [] => rfl
    | [a] => simp [replace3, occurs, prefOf]
    | [a, b] => simp [replace3, occurs, prefOf]
    | a :: b :: c :: rest =>
      rw [replace3_cons3]
      by_cases hm : a = '[' ∧ b = mid ∧ c = ']'
      · rw [if_pos hm]
        have hrec := ih rest (by simp at hl; omega)
        simp only [occurs, Bool.or_eq_false_iff]
        exact ⟨by simp [prefOf, Ne.symm h1], hrec⟩
      · rw [if_neg hm]
        have hrec := ih (b :: c :: rest) (by simp at hl ⊢; omega)
        simp only [occurs, Bool.or_eq_false_iff]
        refine ⟨?_, hrec⟩
        by_cases ha : a = '['
        · subst ha
        -- head analysis of the rewritten tail
          simp only [prefOf, decide_eq_true_eq, Bool.and_eq_false_iff]
          right
          cases rest with
          | nil =>
            by_cases hb : b = mid
            · subst hb
              have hc : c ≠ ']' := fun hc => hm ⟨rfl, rfl, hc⟩
              simp [replace3, prefOf, Ne.symm hc]
            · simp [replace3, prefOf, Ne.symm hb]
          | cons d rest' =>
            rw [replace3_cons3]
            by_cases hm2 : b = '[' ∧ c = mid ∧ d = ']'
            · rw [if_pos hm2]; simp [prefOf, Ne.symm h2]
            · rw [if_neg hm2]
              by_cases hb : b = mid
              · subst hb
                have hc : c ≠ ']' := fun hc => hm ⟨rfl, rfl, hc⟩
                simp only [prefOf, decide_eq_true_eq, Bool.and_eq_false_iff]
                right
                exact pref_close_of_head h3 (fun c0 hc0 => by
                  simp only [List.head?_cons, Option.some.injEq] at hc0
                  subst hc0; exact hc)
              · simp [prefOf, Ne.symm hb]
        · simp [prefOf, Ne.symm ha]

/-- `replace3 mid rep` creates no new occurrence of another idiom `[y]`. -/
lemma replace3_keeps_absent (mid rep y : Char)
    (h1 : rep ≠ '[') (h2 : rep ≠ y) (h3 : rep ≠ ']') :
    ∀ (n : ℕ) (l : List Char), l.length ≤ n → occurs ['[', y, ']'] l = false →
      occurs ['[', y, ']'] (replace3 mid rep l) = false := by
  intro n
  induction n with
  | zero =>
    intro l hl _
    obtain rfl : l = [] := List.length_eq_zero.mp (Nat.le_zero.mp hl)
    rfl
  | succ n ih =>
    intro l hl habs
    match l with
    | [] => rfl
    | [a] => simpa [replace3] using habs
    | [a, b] => simpa [replace3] using habs
    | a :: b :: c :: rest =>
      rw [replace3_cons3]
      by_cases hm : a = '[' ∧ b = mid ∧ c = ']'
      · rw [if_pos hm]
        have hrec := ih rest (by simp at hl; omega)
          (occurs_cons_tail (occurs_cons_tail (occurs_cons_tail habs)))
        simp only [occurs, Bool.or_eq_false_iff]
        exact ⟨by simp [prefOf, Ne.symm h1], hrec⟩
      · rw [if_neg hm]
        have hrec := ih (b :: c :: rest) (by simp at hl ⊢; omega) (occurs_cons_tail habs)
        simp only [occurs, Bool.or_eq_false_iff]
        refine ⟨?_, hrec⟩
        by_cases ha : a = '['
        · subst ha
          simp only [prefOf, decide_eq_true_eq, Bool.and_eq_false_iff]
          right
          have hq : ¬(b = y ∧ c = ']') := by
            intro ⟨hb, hc⟩
            subst hb; subst hc
            simp [occurs, prefOf] at habs
          cases rest with
          | nil =>
            by_cases hb : b = y
            · subst hb
              have hc : c ≠ ']' := fun hc => hq ⟨rfl, hc⟩
              simp [replace3, prefOf, Ne.symm hc]
            · simp [replace3, prefOf, Ne.symm hb]
          | cons d rest' =>
            rw [replace3_cons3]
            by_cases hm2 : b = '[' ∧ c = mid ∧ d = ']'
            · rw [if_pos hm2]; simp [prefOf, Ne.symm h2]
            · rw [if_neg hm2]
              by_cases hb : b = y
              · subst hb
                have hc : c ≠ ']' := fun hc => hq ⟨rfl, hc⟩
                simp only [prefOf, decide_eq_true_eq, Bool.and_eq_false_iff]
                right
                exact pref_close_of_head h3 (fun c0 hc0 => by
                  simp only [List.head?_cons, Option.some.injEq] at hc0
                  subst hc0; exact hc)
              · simp [prefOf, Ne.symm hb]
        · simp [prefOf, Ne.symm ha]

/-- On idiom-free text the rewriter is the identity. -/
lemma replace3_id_of_absent (mid rep : Char) :
    ∀ (n : ℕ) (l : List Char), l.length ≤ n → occurs ['[', mid, ']'] l = false →
      replace3 mid rep l = l := by
  intro n
  induction n with
  | zero =>
    intro l hl _
    obtain rfl : l = [] := List.length_eq_zero.mp (Nat.le_zero.mp hl)
    rfl
  | succ n ih =>
    intro l hl habs
    match l with
    | [] => rfl
    | [a] => rfl
    | [a, b] => rfl
    | a :: b :: c :: rest =>
      rw [replace3_cons3]
      by_cases hm : a = '[' ∧ b = mid ∧ c = ']'
      · obtain ⟨rfl, rfl, rfl⟩ := hm
        simp [occurs, prefOf] at habs
      · rw [if_neg hm, ih (b :: c :: rest) (by simp at hl ⊢; omega) (occurs_cons_tail habs)]

/-- C9: after the Pattern Rewriter, none of the four 3-character idioms
"[-]", "[+]", "[<]", "[>]" occurs in the output, and the rewriter is
idempotent: a second application returns its own output unchanged. -/
theorem optimize_idiom_free (l : List Char) :
    occurs ['[', '-', ']'] (optimize l) = false ∧
    occurs ['[', '+', ']'] (optimize l) = false ∧
    occurs ['[', '<', ']'] (optimize l) = false ∧
    occurs ['[', '>', ']'] (optimize l) = false ∧
    optimize (optimize l) = optimize l := by
  have hA : ∀ (mid rep : Char), rep ≠ '[' → rep ≠ mid → rep ≠ ']' →
      ∀ t : List Char, occurs ['[', mid, ']'] (replace3 mid rep t) = false :=
    fun mid rep a b c t => replace3_not_self mid rep a b c t.length t le_rfl
  have hB : ∀ (mid rep y : Char), rep ≠ '[' → rep ≠ y → rep ≠ ']' →
      ∀ t : List Char, occurs ['[', y, ']'] t = false →
        occurs ['[', y, ']'] (replace3 mid rep t) = false :=
    fun mid rep y a b c t => replace3_keeps_absent mid rep y a b c t.length t le_rfl
  have hC : ∀ (mid rep : Char) (t : List Char), occurs ['[', mid, ']'] t = false →
      replace3 mid rep t = t :=
    fun mid rep t => replace3_id_of_absent mid rep t.length t le_rfl
  unfold optimize
  set s1 := replace3 '-' 'c' l with hs1
  set s2 := replace3 '+' 'c' s1 with hs2
  set s3 := replace3 '<' 'l' s2 with hs3
  set s4 := replace3 '>' 'r' s3 with hs4
  have m1 : occurs ['[', '-', ']'] s4 = false :=
    hB '>' 'r' '-' (by decide) (by decide) (by decide) s3
      (hB '<' 'l' '-' (by decide) (by decide) (by decide) s2
        (hB '+' 'c' '-' (by decide) (by decide) (by decide) s1
          (hA '-' 'c' (by decide) (by decide) (by decide) l)))
  have m2 : occurs ['[', '+', ']'] s4 = false :=
    hB '>' 'r' '+' (by decide) (by decide) (by decide) s3
      (hB '<' 'l' '+' (by decide) (by decide) (by decide) s2
        (hA '+' 'c' (by decide) (by decide) (by decide) s1))
  have m3 : occurs ['[', '<', ']'] s4 = false :=
    hB '>' 'r' '<' (by decide) (by decide) (by decide) s3
      (hA '<' 'l' (by decide) (by decide) (by decide) s2)
  have m4 : occurs ['[', '>', ']'] s4 = false :=
    hA '>' 'r' (by decide) (by decide) (by decide) s3
  refine ⟨m1, m2, m3, m4, ?_⟩
  rw [hC '-' 'c' s4 m1, hC '+' 'c' s4 m2, hC '<' 'l' s4 m3, hC '>' 'r' s4 m4]

/-- C4: on a program with balanced brackets the resolution pass completes,
and the resulting target assignment is mutually symmetric: the entry at
`i` is a loop-start with target `j` exactly when the entry at `j` is a
loop-end with target `i`.  (The targets are computed once here and the
machine only reads the program, so they are never changed afterwards.) -/
theorem resolve_targets_symmetric (p : List Instr)
    (hbal : BalancedB (p.map instrDelta)) :
    ∃ p', resolve p = some p' ∧ p'.length = p.length ∧
      ∀ i j, (p'[i]? = some (Instr.loopStart j) ↔ p'[j]? = some (Instr.loopEnd i)) := by
  have hbal' : Balanced (p.map instrDelta) := (balanced_iff_b _).mpr hbal
  have hscan : ∀ i ∈ List.range p.length, scanOk p i := by
    intro i _
    unfold scanOk
    rcases hpi : p[i]? with _ | x
    · trivial
    · cases x
      case loopStart t =>
        exact fwd_total hbal' (by rw [List.getElem?_map, hpi]; rfl)
      case loopEnd t =>
        exact bwd_total hbal' (by rw [List.getElem?_map, hpi]; rfl)
      all_goals trivial
  obtain ⟨p', hgo, hδ', hq', _, hall⟩ :=
    resolveGo_spec (List.range p.length) p p rfl (fun m => Or.inl rfl) hscan
  have hlen : p'.length = p.length := by
    have := congrArg List.length hδ'
    simpa using this
  refine ⟨p', hgo, hlen, ?_⟩
  have hchar : ∀ m, p'[m]? = resolvedAt p m := by
    intro m
    by_cases hm : m < p.length
    · exact hall m (List.mem_range.mpr hm)
    · have h1 : p'[m]? = none := List.getElem?_eq_none (by omega)
      have h2 : resolvedAt p m = none := by
        unfold resolvedAt
        rw [List.getElem?_eq_none (by omega)]
      rw [h1, h2]
  intro i j
  constructor
  · intro h
    rw [hchar i] at h
    unfold resolvedAt at h
    rcases hpi : p[i]? with _ | x
    · rw [hpi] at h; exact Option.noConfusion h
    · rw [hpi] at h
      cases x
      case loopStart t =>
        rcases Option.map_eq_some'.mp h with ⟨j', hj', hEq⟩
        have hj'j : j' = j := by injection hEq
        rw [hj'j] at hj'
        obtain ⟨hjlt, hdj, hbwd⟩ := fwd_to_bwd (by rw [List.getElem?_map, hpi]; rfl) hj'
        obtain ⟨t2, hpj⟩ : ∃ t2, p[j]? = some (.loopEnd t2) := by
          rw [List.getElem?_map] at hdj
          rcases hpj : p[j]? with _ | y
          · rw [hpj] at hdj; exact Option.noConfusion hdj
          · rw [hpj] at hdj
            simp only [Option.map_some', Option.some.injEq] at hdj
            cases y <;> first
              | exact ⟨_, rfl⟩
              | simp [instrDelta] at hdj
        rw [hchar j]
        unfold resolvedAt
        rw [hpj, hbwd]
        rfl
      case loopEnd t =>
        rcases Option.map_eq_some'.mp h with ⟨j', _, hEq⟩
        exact Instr.noConfusion hEq
      all_goals exact Instr.noConfusion (Option.some.inj h)
  · intro h
    rw [hchar j] at h
    unfold resolvedAt at h
    rcases hpj : p[j]? with _ | x
    · rw [hpj] at h; exact Option.noConfusion h
    · rw [hpj] at h
      cases x
      case loopEnd t =>
        rcases Option.map_eq_some'.mp h with ⟨i', hi', hEq⟩
        have hi'i : i' = i := by injection hEq
        rw [hi'i] at hi'
        obtain ⟨hij, hdi, hfwd⟩ := bwd_to_fwd (by rw [List.getElem?_map, hpj]; rfl) hi'
        obtain ⟨t2, hpi⟩ : ∃ t2, p[i]? = some (.loopStart t2) := by
          rw [List.getElem?_map] at hdi
          rcases hpi : p[i]? with _ | y
          · rw [hpi] at hdi; exact Option.noConfusion hdi
          · rw [hpi] at hdi
            simp only [Option.map_some', Option.some.injEq] at hdi
            cases y <;> first
              | exact ⟨_, rfl⟩
              | simp [instrDelta] at hdi
        rw [hchar i]
        unfold resolvedAt
        rw [hpi, hfwd]
        rfl
      case loopStart t =>
        rcases Option.map_eq_some'.mp h with ⟨i', _, hEq⟩
        exact Instr.noConfusion hEq
      all_goals exact Instr.noConfusion (Option.some.inj h)

/-- Witness for C4 at the concrete balanced program "[[]]" (as emitted). -/
theorem resolve_targets_symmetric_w :
    ∃ p', resolve [Instr.loopStart 0, Instr.loopStart 0, Instr.loopEnd 0, Instr.loopEnd 0]
        = some p' ∧
      p'.length = [Instr.loopStart 0, Instr.loopStart 0,
        Instr.loopEnd 0, Instr.loopEnd 0].length ∧
      ∀ i j, (p'[i]? = some (Instr.loopStart j) ↔ p'[j]? = some (Instr.loopEnd i)) :=
  resolve_targets_symmetric
    [Instr.loopStart 0, Instr.loopStart 0, Instr.loopEnd 0, Instr.loopEnd 0] (by decide)

/-- C7 (amended): if the input program contains an unmatched bracket and
pass 1 consumes the whole rewritten text (no zero-sum run halts
compilation early), then evaluation aborts during bracket resolution and
returns nothing, for any fuel and either live-output setting. -/
theorem unmatched_bracket_aborts (src : List Char) (flag : Bool) (fuel : ℕ)
    (hdone : (emit (optimize (minify src))).2 = EmitEnd.done)
    (hunb : ¬ BalancedB (src.map charDelta)) :
    evaluate src flag fuel = none := by
  rcases hc : compile (optimize (minify src)) with _ | prog
  · unfold evaluate
    rw [hc]
    rfl
  · exfalso
    apply hunb
    apply (balanced_iff_b _).mp
    have hres : resolve (emit (optimize (minify src))).1 = some prog := by
      unfold compile at hc
      rcases hemit : emit (optimize (minify src)) with ⟨is, e⟩
      rw [hemit] at hc hdone
      cases e
      case failed => exact EmitEnd.noConfusion hdone
      case halted => exact EmitEnd.noConfusion hdone
      case done => exact hc
    have hbal_instr : Balanced ((emit (optimize (minify src))).1.map instrDelta) :=
      resolve_balanced hres
    have hbw := emit_bw (optimize (minify src)).length (optimize (minify src)) le_rfl hdone
    have hbal_rew : Balanced ((optimize (minify src)).map charDelta) := by
      have h1 := (balanced_bw _).mp hbal_instr
      rw [hbw] at h1
      exact (balanced_bw _).mpr h1
    have hbal_min : Balanced ((minify src).map charDelta) :=
      (optimize_balanced (minify src)).mp hbal_rew
    have h2 := (balanced_bw _).mp hbal_min
    rw [minify_bw] at h2
    exact (balanced_bw _).mpr h2

/-- Counterexample to C7 as stated: "><[" contains an unmatched loop-start
yet evaluates successfully (to the empty output), because the zero-sum run
"><" halts compilation before the bracket is ever emitted. -/
theorem unmatched_bracket_aborts_cex :
    ¬ BalancedB (['>', '<', '['].map charDelta) ∧
    evaluate ['>', '<', '['] false 1 = some [] := by decide

/-- Witness for C7 at the concrete input "[". -/
theorem unmatched_bracket_aborts_w : evaluate ['['] false 5 = none :=
  unmatched_bracket_aborts ['['] false 5 (by decide) (by decide)

/-- C8: the Normalizer output is a subsequence of its input containing
only the eight instruction characters; it is total (no failure, no side
effects in the embedding) and maps empty input to empty output. -/
theorem minify_subseq_only_instr (l : List Char) :
    (minify l).Sublist l ∧ (∀ c ∈ minify l, isInstrChar c = true) ∧ minify [] = [] :=
  ⟨List.filter_sublist l, fun _ hc => List.of_mem_filter hc, rfl⟩

/-- Witness for C8 at a concrete input. -/
theorem minify_subseq_only_instr_w :
    (minify ['a', '+', 'b']).Sublist ['a', '+', 'b'] ∧ isInstrChar '+' = true :=
  ⟨(minify_subseq_only_instr ['a', '+', 'b']).1,
   (minify_subseq_only_instr ['a', '+', 'b']).2.1 '+' (by decide)⟩

/-- C10: the live-output flag does not interfere with the returned value:
evaluation with the flag on returns exactly what evaluation with the flag
off returns, for every source text and every fuel (the flag only adds each
output byte to the external sink). -/
theorem evaluate_flag_noninterference (src : List Char) (fuel : ℕ) :
    evaluate src true fuel = evaluate src false fuel := by
  unfold evaluate
  cases hc : compile (optimize (minify src)) with
  | none => rfl
  | some p =>
    simp only [Option.some_bind]
    unfold execute
    have h := runM_core p true false fuel initState initState rfl
    cases h1 : runM p true fuel initState with
    | none =>
      cases h2 : runM p false fuel initState with
      | none => rfl
      | some t => rw [h1, h2] at h; simp at h
    | some s =>
      cases h2 : runM p false fuel initState with
      | none => rw [h1, h2] at h; simp at h
      | some t =>
        rw [h1, h2] at h
        simp only [Option.map_some'] at h ⊢
        exact congrArg some (core_out (Option.some.inj h))

end BF
